import Mathlib

/-!
Shallow embedding of `src/addon/mixins/copyable.js` (ember-data-copyable).

The mixin's two ember-concurrency tasks are modelled as fuel-indexed state
transformers.  JavaScript mutations survive exceptions, so every operation
returns its (possibly error) result *together with* the updated state.
Record identities are `guidFor` guids: source records are indices into
`Env.records`, clones receive fresh guids from `St.nextGuid`.
-/

namespace EmberDataCopyable

/-- JavaScript runtime values, as far as the mixin observes them.  `ref g` is
an object reference to the record with guid `g`; `list` is an ordered
(has-many style) collection; `obj` is an opaque non-record object. -/
inductive Val where
  | undef
  | null
  | bool (b : Bool)
  | num (n : Int)
  | str (s : String)
  | ref (g : Nat)
  | list (elems : List Val)
  | obj (id : Nat)
deriving Repr

/-- A JS object used as a string-keyed dictionary (`dAttrs`, `rAttrs`, ...). -/
abbrev JsObj := List (String × Val)

/-- First-match association lookup: JS property read on a key-unique object. -/
def alookup {κ β : Type} [DecidableEq κ] : List (κ × β) → κ → Option β
  | [], _ => none
  | p :: rest, k => if p.1 = k then some p.2 else alookup rest k

/-- Remove every entry with key `k`. -/
def aerase {κ β : Type} [DecidableEq κ] : List (κ × β) → κ → List (κ × β)
  | [], _ => []
  | p :: rest, k => if p.1 = k then aerase rest k else p :: aerase rest k

/-- JS property write `o[k] = v` (entry order is not observed by the mixin,
so the updated entry may move to the end). -/
def aset {κ β : Type} [DecidableEq κ] (l : List (κ × β)) (k : κ) (v : β) :
    List (κ × β) :=
  aerase l k ++ [(k, v)]

/-- `Object.assign(a, b)`: copy every own key of `b` (including keys whose
value is `undefined`) onto `a`, later entries winning. -/
def amerge {κ β : Type} [DecidableEq κ] (a b : List (κ × β)) : List (κ × β) :=
  b.foldl (fun acc p => aset acc p.1 p.2) a

def objGet (o : JsObj) (k : String) : Option Val := alookup o k

/-- JS member access `o[k]`: an absent key reads as `undefined`. -/
def jsIndex (o : JsObj) (k : String) : Val := (objGet o k).getD Val.undef

/-- Modelled from the spec: the util `utils/is-undefined` is not under `src/`;
per the spec an `overwrite` entry short-circuits the normal copy logic only
when its value is defined, so this is the strict `undefined` test. -/
def isUndefined : Val → Bool
  | .undef => true
  | _ => false

/-- Partial copy options, one JS options object: a key that the object does
not define is `none` and falls through to the next object in the
`Ember.assign` merge.  `relationships` maps a relationship name to the
sub-options object forwarded to the child copy; its `deep` field is the
per-relationship deep override (`typeof relOptions.deep === 'boolean'`). -/
inductive POptions where
  | mk (ignoreAttributes otherAttributes copyByReference : Option (List String))
       (overwrite : Option JsObj)
       (relationships : Option (List (String × POptions)))
       (deep createAsModel objectDefinition : Option Bool)
deriving Repr

def POptions.ignoreA : POptions → Option (List String)
  | .mk a _ _ _ _ _ _ _ => a

def POptions.otherA : POptions → Option (List String)
  | .mk _ a _ _ _ _ _ _ => a

def POptions.byRefA : POptions → Option (List String)
  | .mk _ _ a _ _ _ _ _ => a

def POptions.overwriteA : POptions → Option JsObj
  | .mk _ _ _ a _ _ _ _ => a

def POptions.relationshipsA : POptions → Option (List (String × POptions))
  | .mk _ _ _ _ a _ _ _ => a

def POptions.deepA : POptions → Option Bool
  | .mk _ _ _ _ _ a _ _ => a

def POptions.createAsModelA : POptions → Option Bool
  | .mk _ _ _ _ _ _ a _ => a

def POptions.objectDefinitionA : POptions → Option Bool
  | .mk _ _ _ _ _ _ _ a => a

/-- Fully merged options, after
`assign({}, DEFAULT_OPTIONS, this.get('copyableOptions'), _options)`. -/
structure MOptions where
  ignoreAttributes : List String
  otherAttributes : List String
  copyByReference : List String
  overwrite : JsObj
  relationships : List (String × POptions)
  createAsModel : Bool
  objectDefinition : Bool
deriving Repr

/-- One key of the shallow `Ember.assign` merge: the call-site options win,
then the model's `copyableOptions`, then `DEFAULT_OPTIONS`. -/
def pickField {α : Type} (a b : Option POptions) (f : POptions → Option α)
    (d : α) : α :=
  match b.bind f with
  | some x => x
  | none =>
    match a.bind f with
    | some x => x
    | none => d

/-- `assign({}, DEFAULT_OPTIONS, copyableOptions, _options)` (line 121). -/
def mergeOptions (copyableOptions callOptions : Option POptions) : MOptions :=
  { ignoreAttributes := pickField copyableOptions callOptions POptions.ignoreA []
    otherAttributes := pickField copyableOptions callOptions POptions.otherA []
    copyByReference := pickField copyableOptions callOptions POptions.byRefA []
    overwrite := pickField copyableOptions callOptions POptions.overwriteA []
    relationships := pickField copyableOptions callOptions POptions.relationshipsA []
    createAsModel := pickField copyableOptions callOptions POptions.createAsModelA true
    objectDefinition := pickField copyableOptions callOptions POptions.objectDefinitionA false }

inductive RelKind where
  | belongsTo
  | hasMany
deriving Repr, DecidableEq

/-- One schema attribute as enumerated by `eachAttribute`: declared type
(possibly empty/untyped) and opaque per-attribute options passed to the
transform. -/
structure AttrDef where
  name : String
  type : Option String
  attrOptions : Nat
deriving Repr

/-- One schema relationship as enumerated by `eachRelationship`. -/
structure RelDef where
  name : String
  kind : RelKind
deriving Repr

/-- A source record.  `getVal` is `this.get(name)`; `linkOk name` says
whether the private `hasManyRelationship/belongsToRelationship.addRecords`
link for that relationship is available at runtime (the `try` of lines
203-215 succeeds); when it is not, the code falls back to the read value. -/
structure SourceRecord where
  modelName : String
  isCopyable : Bool
  copyableOptions : Option POptions
  attrs : List AttrDef
  rels : List RelDef
  getVal : String → Val
  linkOk : String → Bool

/-- External collaborators (spec section 6): the record graph, the duck-typed
`Ember.Copyable` detection with its `copy(deep)` operation for attribute
values, and the transform registry's serialize-then-deserialize round trip
(which may throw). -/
structure Env where
  records : List SourceRecord
  detectCopyable : Val → Bool
  copyValue : Bool → Val → Val
  transform : String → Nat → Val → Except String Val

def PRIMITIVE_TYPES : List String := ["string", "number", "boolean"]

/-- `Ember.isEmpty` on a declared attribute type. -/
def isEmptyType : Option String → Bool
  | none => true
  | some s => decide (s = "")

/-- `IS_COPYABLE` read off a record guid (false for dangling guids). -/
def recCopyableAt (env : Env) (g : Nat) : Bool :=
  match env.records.get? g with
  | some r => r.isCopyable
  | none => false

/-- `value && value.get(IS_COPYABLE)`: only record references expose the
copy capability; `null`/`undefined`/plain values do not. -/
def valCopyableRec (env : Env) : Val → Bool
  | .ref g => recCopyableAt env g
  | _ => false

/-- The member list of a has-many value (`value.toArray()` view). -/
def listElemsOf : Val → List Val
  | .list l => l
  | _ => []

/-- Modelled from the spec: `utils/get-transform` is not under `src/`; it
resolves the transform for an attribute type and caches the resolved
instance in the session meta (`_meta.transforms`), once per type. -/
def getTransformCache (tcache : List String) (t : String) : List String :=
  if tcache.contains t then tcache else tcache ++ [t]

/-- Errors escaping a task: either the model artifact of fuel exhaustion
(never produced by a sufficiently provisioned run, see the termination
theorem) or a real JS exception with its message. -/
inductive CopyErr where
  | fuel
  | js (msg : String)
deriving Repr, DecidableEq

def errMessage : CopyErr → String
  | .fuel => "fuel exhausted"
  | .js m => m

/-- `throw new Error(e)` (line 97): the rejection reason is a fresh `Error`
whose message stringifies the originating error. -/
def wrapErr (e : CopyErr) : CopyErr := .js ("Error: " ++ errMessage e)

/-- Mutable world threaded through a copy session: the guid allocator, the
store contents (clone guid, model name), each clone's properties as set by
`setProperties`, the low-level relationship links added by `addRecords`
(keyed by clone guid and relationship name), the session's `_meta.copies`
identity map, the session's `_meta.transforms` cache, and an
instrumentation counter of `COPY_TASK.perform` invocations. -/
structure St where
  nextGuid : Nat
  storeRecs : List (Nat × String)
  props : List (Nat × JsObj)
  links : List ((Nat × String) × Val)
  copies : List (Nat × Nat)
  transforms : List String
  recCalls : Nat
deriving Repr

def lookupCopies (copies : List (Nat × Nat)) (g : Nat) : Option Nat :=
  alookup copies g

def propsLookup (st : St) (c : Nat) : Option JsObj := alookup st.props c

def linkLookup (st : St) (c : Nat) (n : String) : Option Val :=
  alookup st.links (c, n)

/-- `copyRef.…Relationship.addRecords(ref.…Relationship.members)`: attach the
source's current members to the clone's relationship state.  The members are
the same underlying related records the source holds for that name. -/
def addLink (st : St) (c : Nat) (n : String) (v : Val) : St :=
  { st with links := st.links ++ [((c, n), v)] }

/-- `setProperties(model, attrs)` (line 256): set every key of `attrs` on
the clone. -/
def setPropsSt (st : St) (c : Nat) (attrs : JsObj) : St :=
  let merged := amerge ((propsLookup st c).getD []) attrs
  { st with props := aset st.props c merged }

/-- Lines 137-146: allocate the copy target.  `store.createRecord(modelName)`
loads a fresh record into the store; otherwise the target is a plain object
(`objectDefinition.create({})` or `{}`), which also has a guid but does not
live in the store. -/
def allocModel (rec : SourceRecord) (o : MOptions) (st : St) : Nat × St :=
  let m := st.nextGuid
  if o.createAsModel then
    (m, { st with nextGuid := m + 1, storeRecs := st.storeRecs ++ [(m, rec.modelName)] })
  else
    (m, { st with nextGuid := m + 1 })

/-- One `eachAttribute` callback body (lines 151-182).  Returns the updated
`dAttrs` and transform cache, or the thrown transform error. -/
def attrStep (env : Env) (rec : SourceRecord) (deep : Bool) (o : MOptions)
    (a : AttrDef) (dAttrs : JsObj) (tcache : List String) :
    Except String (JsObj × List String) :=
  if o.ignoreAttributes.contains a.name then
    .ok (dAttrs, tcache)
  else if !(isUndefined (jsIndex o.overwrite a.name)) then
    .ok (aset dAttrs a.name (jsIndex o.overwrite a.name), tcache)
  else if !(isEmptyType a.type) && !(o.copyByReference.contains a.name)
      && !(PRIMITIVE_TYPES.contains ((a.type).getD "")) then
    if env.detectCopyable (rec.getVal a.name) then
      .ok (aset dAttrs a.name (env.copyValue deep (rec.getVal a.name)), tcache)
    else
      match env.transform ((a.type).getD "") a.attrOptions (rec.getVal a.name) with
      | .ok v => .ok (aset dAttrs a.name v, getTransformCache tcache ((a.type).getD ""))
      | .error e => .error e
  else
    .ok (aset dAttrs a.name (rec.getVal a.name), tcache)

/-- The attribute pass: `eachAttribute` in schema order; a thrown transform
error aborts the remaining iterations and propagates. -/
def attrsLoop (env : Env) (rec : SourceRecord) (deep : Bool) (o : MOptions) :
    List AttrDef → JsObj → List String → Except String (JsObj × List String)
  | [], dAttrs, tcache => .ok (dAttrs, tcache)
  | a :: rest, dAttrs, tcache =>
    match attrStep env rec deep o a dAttrs tcache with
    | .ok (d', t') => attrsLoop env rec deep o rest d' t'
    | .error e => .error e

/-- `this.getProperties(otherAttributes)`: read every listed name verbatim
from the source (keys are present even when the value is `undefined`). -/
def getProps (rec : SourceRecord) (names : List String) : JsObj :=
  names.foldl (fun acc n => aset acc n (rec.getVal n)) []

abbrev CopyRes (α : Type) := Except CopyErr α × St

/-- The recursive child-copy operation
(`value.get(COPY_TASK).perform(deepRel, relOptions, _meta)`). -/
abbrev Child := Nat → Bool → Option POptions → St → CopyRes Nat

/-- The parallel member copies of a has-many
(`all(value.getEach(COPY_TASK).invoke('perform', …))`): cooperative task
interleaving, joined in source order.  Ember's `invoke` skips members that
do not implement `perform`, leaving `undefined` in that slot. -/
def membersLoop (env : Env) (child : Child) (deepRel : Bool)
    (relOpts : Option POptions) : List Val → St → CopyRes (List Val)
  | [], st => (.ok [], st)
  | v :: rest, st =>
    match v with
    | .ref g =>
      if recCopyableAt env g then
        match child g deepRel relOpts st with
        | (.ok c, st₁) =>
          match membersLoop env child deepRel relOpts rest st₁ with
          | (.ok cs, st₂) => (.ok (Val.ref c :: cs), st₂)
          | (.error e, st₂) => (.error e, st₂)
        | (.error e, st₁) => (.error e, st₁)
      else
        match membersLoop env child deepRel relOpts rest st with
        | (.ok cs, st₁) => (.ok (Val.undef :: cs), st₁)
        | (.error e, st₁) => (.error e, st₁)
    | _ =>
      match membersLoop env child deepRel relOpts rest st with
      | (.ok cs, st₁) => (.ok (Val.undef :: cs), st₁)
      | (.error e, st₁) => (.error e, st₁)

/-- The deep has-many branch (lines 233-243): check the collection's
`firstObject` for the copy capability; keep the collection as-is when it is
empty or its first member is not copyable, else copy every member. -/
def hasManyDeepCopy (env : Env) (child : Child) (deepRel : Bool)
    (relOpts : Option POptions) (value : Val) (st : St) : CopyRes Val :=
  match (listElemsOf value).head? with
  | some f =>
    if valCopyableRec env f then
      match membersLoop env child deepRel relOpts (listElemsOf value) st with
      | (.ok cs, st₁) => (.ok (Val.list cs), st₁)
      | (.error e, st₁) => (.error e, st₁)
    else (.ok value, st)
  | none => (.ok value, st)

/-- The relationship pass (lines 192-244) over the non-ignored
relationships.  `modelG` is the clone under construction.  A defined
`overwrite` entry short-circuits; `!deep || copyByReference` takes the
reference-link mode whose `try` is caught (the link also throws when the
target is not a store model, i.e. `createAsModel` is false); otherwise the
deep branch recurses through `child` with the per-relationship sub-options
and deep override. -/
def relsLoop (env : Env) (child : Child) (rec : SourceRecord) (modelG : Nat)
    (deep : Bool) (o : MOptions) :
    List RelDef → JsObj → St → CopyRes JsObj
  | [], rAttrs, st => (.ok rAttrs, st)
  | r :: rest, rAttrs, st =>
    if !(isUndefined (jsIndex o.overwrite r.name)) then
      relsLoop env child rec modelG deep o rest
        (aset rAttrs r.name (jsIndex o.overwrite r.name)) st
    else if !deep || o.copyByReference.contains r.name then
      if rec.linkOk r.name && o.createAsModel then
        relsLoop env child rec modelG deep o rest rAttrs
          (addLink st modelG r.name (rec.getVal r.name))
      else
        relsLoop env child rec modelG deep o rest
          (aset rAttrs r.name (rec.getVal r.name)) st
    else
      let value := rec.getVal r.name
      let relOpts := (alookup o.relationships r.name : Option POptions)
      let deepRel :=
        match relOpts with
        | some p => (POptions.deepA p).getD deep
        | none => deep
      match r.kind with
      | .belongsTo =>
        match value with
        | .ref g =>
          if recCopyableAt env g then
            match child g deepRel relOpts st with
            | (.ok c, st₁) =>
              relsLoop env child rec modelG deep o rest
                (aset rAttrs r.name (Val.ref c)) st₁
            | (.error e, st₁) => (.error e, st₁)
          else
            relsLoop env child rec modelG deep o rest
              (aset rAttrs r.name value) st
        | _ =>
          relsLoop env child rec modelG deep o rest
            (aset rAttrs r.name value) st
      | .hasMany =>
        match hasManyDeepCopy env child deepRel relOpts value st with
        | (.ok w, st₁) =>
          relsLoop env child rec modelG deep o rest
            (aset rAttrs r.name w) st₁
        | (.error e, st₁) => (.error e, st₁)

/-- `COPY_TASK` (lines 120-259), fuel-indexed: merge the options, short-cut
through the session memo, allocate and *register* the target before copying
any field, run the attribute pass, the relationship pass, then merge
`getProperties(otherAttributes)`, `dAttrs`, `rAttrs` and `overwrite` (last)
and apply the result with `setProperties`.  (The write-back of the three
intermediate maps into the caller's `_options` object, lines 249-253, is
introspection-only and not modelled.) -/
def copyTask (env : Env) : Nat → Nat → Bool → Option POptions → St → CopyRes Nat
  | 0, _, _, _, st => (.error .fuel, st)
  | fuel + 1, g, deep, popts, st0 =>
    let st := { st0 with recCalls := st0.recCalls + 1 }
    match env.records.get? g with
    | none => (.error (.js "not a copyable record"), st)
    | some rec =>
      let o := mergeOptions rec.copyableOptions popts
      match lookupCopies st.copies g with
      | some c => (.ok c, st)
      | none =>
        let alloc := allocModel rec o st
        let modelG := alloc.1
        let st₂ := { alloc.2 with copies := alloc.2.copies ++ [(g, modelG)] }
        match attrsLoop env rec deep o rec.attrs [] st₂.transforms with
        | .error e => (.error (.js e), st₂)
        | .ok (dAttrs, tcache) =>
          let st₃ := { st₂ with transforms := tcache }
          let rels := rec.rels.filter (fun r => !(o.ignoreAttributes.contains r.name))
          match relsLoop env (copyTask env fuel) rec modelG deep o rels [] st₃ with
          | (.error e, st₄) => (.error e, st₄)
          | (.ok rAttrs, st₄) =>
            let attrs :=
              amerge (amerge (amerge (getProps rec o.otherAttributes) dAttrs) rAttrs)
                o.overwrite
            (.ok modelG, setPropsSt st₄ modelG attrs)

/-- `store.unloadRecord` on a clone guid. -/
def unloadRecordSt (st : St) (g : Nat) : St :=
  { st with storeRecs := st.storeRecs.filter (fun p => decide (p.1 ≠ g)) }

def unloadAll (st : St) (gs : List Nat) : St := gs.foldl unloadRecordSt st

/-- `_meta = { copies: {}, transforms: {} }` (line 84): a fresh session. -/
def freshMeta (st : St) : St := { st with copies := [], transforms := [] }

/-- `COPY_TASK_RUNNER` (lines 83-109): create a fresh session, run the copy
task; on success return the model; on any error unload every clone recorded
in `_meta.copies` from the store and re-raise `new Error(e)`. -/
def copyTaskRunner (env : Env) (fuel : Nat) (g : Nat) (deep : Bool)
    (popts : Option POptions) (st : St) : CopyRes Nat :=
  match copyTask env fuel g deep popts (freshMeta st) with
  | (.ok m, st₁) => (.ok m, st₁)
  | (.error e, st₁) => (.error (wrapErr e), unloadAll st₁ (st₁.copies.map (·.2)))

inductive PerformOutcome where
  | dropped
  | finished (r : Except CopyErr Nat)
deriving Repr

/-- The public `copy` entry point (line 72) performs `COPY_TASK_RUNNER`,
whose ember-concurrency `.drop()` policy keeps at most one task instance
per record object: when a runner instance for this record is already
executing (`busy`), the new perform is dropped without ever starting. -/
def performCopy (env : Env) (fuel : Nat) (busy : Bool) (g : Nat) (deep : Bool)
    (popts : Option POptions) (st : St) : PerformOutcome × St :=
  if busy then (.dropped, st)
  else
    match copyTaskRunner env fuel g deep popts st with
    | (r, st₁) => (.finished r, st₁)

/-- Store/heap well-formedness: every clone-keyed table only mentions guids
already allocated. -/
def StWF (st : St) : Prop :=
  (∀ p ∈ st.links, p.1.1 < st.nextGuid) ∧ (∀ p ∈ st.props, p.1 < st.nextGuid)

/-- The source identities a session has not visited yet. -/
def missingS (env : Env) (copies : List (Nat × Nat)) : Finset Nat :=
  (Finset.range env.records.length).filter (fun h => lookupCopies copies h = none)

/-- `a`'s entries all survive in `b` (the session memo only grows). -/
def copiesExt (a b : List (Nat × Nat)) : Prop :=
  ∀ g c, lookupCopies a g = some c → lookupCopies b g = some c

/-- A JS object has no duplicate keys. -/
def keysNodup {κ β : Type} (l : List (κ × β)) : Prop := (l.map Prod.fst).Nodup

/-- What any copy step preserves of the world: the session memo only grows,
the guid allocator only advances, and the links/properties of clones that
existed before the step are untouched. -/
def PresTo (st out : St) : Prop :=
  copiesExt st.copies out.copies ∧
  st.nextGuid ≤ out.nextGuid ∧
  (∀ c n, c < st.nextGuid → linkLookup out c n = linkLookup st c n) ∧
  (∀ c, c < st.nextGuid → propsLookup out c = propsLookup st c)

/-- What the relationship pass preserves: like `PresTo`, except that links of
the clone under construction (`mG`) at the names of the remaining
relationships may be added. -/
def RelOut (mG : Nat) (names : List String) (st out : St) : Prop :=
  copiesExt st.copies out.copies ∧
  st.nextGuid ≤ out.nextGuid ∧
  (∀ c n, c < st.nextGuid → (c ≠ mG ∨ n ∉ names) →
    linkLookup out c n = linkLookup st c n) ∧
  (∀ c, c < st.nextGuid → propsLookup out c = propsLookup st c)

/-- The hypotheses a recursive child-copy function provides. -/
def ChildPres (child : Child) : Prop :=
  ∀ g d p st, PresTo st (child g d p st).2

def ChildFuel (env : Env) (F : Nat) (child : Child) : Prop :=
  ∀ g d p st, (missingS env st.copies).card < F →
    (child g d p st).1 ≠ Except.error CopyErr.fuel

def ChildRecords (child : Child) : Prop :=
  ∀ g d p st c, (child g d p st).1 = Except.ok c →
    lookupCopies (child g d p st).2.copies g = some c

/-- The session-bumped state at `COPY_TASK` entry (the instrumentation
counter records one task invocation). -/
def stEnter (st : St) : St := { st with recCalls := st.recCalls + 1 }

/-- The state right after target allocation and registration
(`copies[guid] = model`, line 148). -/
def stRegistered (rec : SourceRecord) (o : MOptions) (g : Nat) (st : St) : St :=
  { (allocModel rec o (stEnter st)).2 with
    copies := (allocModel rec o (stEnter st)).2.copies ++
      [(g, (allocModel rec o (stEnter st)).1)] }

/-- The non-ignored relationships (lines 185-189). -/
def relsOf (rec : SourceRecord) (o : MOptions) : List RelDef :=
  rec.rels.filter (fun r => !(o.ignoreAttributes.contains r.name))

/-- `assign(this.getProperties(otherAttributes), dAttrs, rAttrs, overwrite)`
(line 248). -/
def finalAttrs (rec : SourceRecord) (o : MOptions) (dAttrs rAttrs : JsObj) : JsObj :=
  amerge (amerge (amerge (getProps rec o.otherAttributes) dAttrs) rAttrs) o.overwrite

/-! ### Concrete test graphs (used by the witness theorems) -/

/-- Fixture: a user record with no attributes or relationships. -/
def wUser : SourceRecord :=
  { modelName := "user", isCopyable := true, copyableOptions := none
    attrs := [], rels := [], getVal := fun _ => Val.undef, linkOk := fun _ => true }

/-- Fixture: a comment with a to-one `author` pointing at record 3. -/
def wComment : SourceRecord :=
  { modelName := "comment", isCopyable := true, copyableOptions := none
    attrs := [AttrDef.mk "body" (some "string") 0]
    rels := [RelDef.mk "author" RelKind.belongsTo]
    getVal := fun n => if n = "author" then Val.ref 3 else Val.str "c"
    linkOk := fun _ => true }

/-- Fixture: a post with a to-many `comments` -> records 1, 2 and a to-one
`author` -> record 3. -/
def wPost : SourceRecord :=
  { modelName := "post", isCopyable := true, copyableOptions := none
    attrs := [AttrDef.mk "title" (some "string") 0]
    rels := [RelDef.mk "comments" RelKind.hasMany, RelDef.mk "author" RelKind.belongsTo]
    getVal := fun n =>
      if n = "title" then Val.str "x"
      else if n = "comments" then Val.list [Val.ref 1, Val.ref 2]
      else if n = "author" then Val.ref 3
      else Val.undef
    linkOk := fun _ => true }

/-- Fixture: the post graph with shared author (`C1.author = C2.author`). -/
def envW : Env :=
  { records := [wPost, wComment, wComment, wUser]
    detectCopyable := fun _ => false
    copyValue := fun _ v => v
    transform := fun _ _ v => Except.ok v }

/-- Fixture: an empty world with the guid allocator at 100. -/
def st0 : St :=
  { nextGuid := 100, storeRecs := [], props := [], links := [], copies := []
    transforms := [], recCalls := 0 }

/-- Fixture: a session that has already cloned record 0 as clone 55. -/
def stC1 : St := { st0 with copies := [(0, 55)] }

/-- Fixture: one node of a two-cycle. -/
def wNode (other : Nat) : SourceRecord :=
  { modelName := "node", isCopyable := true, copyableOptions := none
    attrs := [], rels := [RelDef.mk "other" RelKind.belongsTo]
    getVal := fun n => if n = "other" then Val.ref other else Val.undef
    linkOk := fun _ => true }

/-- Fixture: a graph with a relationship cycle of length 2. -/
def envCyc : Env :=
  { records := [wNode 1, wNode 0], detectCopyable := fun _ => false
    copyValue := fun _ v => v, transform := fun _ _ v => Except.ok v }

/-- Fixture: a record whose only attribute needs a (failing) transform. -/
def wBroken : SourceRecord :=
  { modelName := "broken", isCopyable := true, copyableOptions := none
    attrs := [AttrDef.mk "when" (some "date") 0], rels := []
    getVal := fun _ => Val.obj 7, linkOk := fun _ => true }

/-- Fixture: a world whose transform registry always throws. -/
def envFail : Env :=
  { records := [wBroken], detectCopyable := fun _ => false
    copyValue := fun _ v => v, transform := fun _ _ _ => Except.error "boom" }

/-- Fixture: call-site options overwriting `title` with a defined value. -/
def pOverwrite : POptions :=
  POptions.mk none none none (some [("title", Val.str "V")]) none none none none

/-- Fixture: call-site options whose `overwrite` has `title: undefined`. -/
def pOverwriteUndef : POptions :=
  POptions.mk none none none (some [("title", Val.undef)]) none none none none

/-- Fixture: call-site options ignoring `title`. -/
def pIgnoreTitle : POptions :=
  POptions.mk (some ["title"]) none none none none none none none

/-- Fixture: the post record on a runtime where the private relationship
link API is unavailable. -/
def wNoLink : SourceRecord := { wPost with linkOk := fun _ => false }

/-! ### Association-list toolkit -/

theorem alookup_append {κ β : Type} [DecidableEq κ] (a b : List (κ × β)) (k : κ) :
    alookup (a ++ b) k = (alookup a k).orElse (fun _ => alookup b k) := by
  induction a with
  | nil => simp [alookup, Option.orElse]
  | cons p rest ih =>
    by_cases h : p.1 = k <;> simp [alookup, h, ih, Option.orElse]

theorem alookup_eq_none_iff {κ β : Type} [DecidableEq κ] (l : List (κ × β)) (k : κ) :
    alookup l k = none ↔ ∀ p ∈ l, p.1 ≠ k := by
  induction l with
  | nil => simp [alookup]
  | cons p rest ih =>
    by_cases h : p.1 = k <;> simp [alookup, h, ih]

theorem alookup_mem {κ β : Type} [DecidableEq κ] {l : List (κ × β)} {k : κ} {v : β}
    (h : alookup l k = some v) : (k, v) ∈ l := by
  induction l with
  | nil => simp [alookup] at h
  | cons p rest ih =>
    obtain ⟨p1, p2⟩ := p
    by_cases hp : p1 = k
    · subst hp
      simp [alookup] at h
      subst h
      exact List.mem_cons_self _ _
    · simp [alookup, hp] at h
      exact List.mem_cons_of_mem _ (ih h)

theorem alookup_aerase_self {κ β : Type} [DecidableEq κ] (l : List (κ × β)) (k : κ) :
    alookup (aerase l k) k = none := by
  induction l with
  | nil => simp [aerase, alookup]
  | cons p rest ih =>
    by_cases h : p.1 = k <;> simp [aerase, alookup, h, ih]

theorem alookup_aerase_ne {κ β : Type} [DecidableEq κ] (l : List (κ × β)) (k k' : κ)
    (h : k' ≠ k) : alookup (aerase l k) k' = alookup l k' := by
  induction l with
  | nil => simp [aerase]
  | cons p rest ih =>
    by_cases hp : p.1 = k
    · simp [aerase, alookup, hp, Ne.symm h, ih]
    · by_cases hp' : p.1 = k' <;> simp [aerase, alookup, hp, hp', h, ih]

theorem alookup_aset_self {κ β : Type} [DecidableEq κ] (l : List (κ × β)) (k : κ) (v : β) :
    alookup (aset l k v) k = some v := by
  simp [aset, alookup_append, alookup_aerase_self, alookup, Option.orElse]

theorem alookup_aset_ne {κ β : Type} [DecidableEq κ] (l : List (κ × β)) (k k' : κ) (v : β)
    (h : k' ≠ k) : alookup (aset l k v) k' = alookup l k' := by
  rw [aset, alookup_append, alookup_aerase_ne l k k' h]
  cases hl : alookup l k' <;> simp [alookup, h, Ne.symm h, Option.orElse]

theorem aerase_sublist {κ β : Type} [DecidableEq κ] (l : List (κ × β)) (k : κ) :
    (aerase l k).Sublist l := by
  induction l with
  | nil => simp [aerase]
  | cons p rest ih =>
    by_cases h : p.1 = k
    · simp only [aerase, if_pos h]
      exact ih.cons p
    · simp only [aerase, if_neg h]
      exact ih.cons₂ p

theorem keysNodup_aset {κ β : Type} [DecidableEq κ] (l : List (κ × β)) (k : κ) (v : β)
    (h : keysNodup l) : keysNodup (aset l k v) := by
  unfold keysNodup at h ⊢
  rw [aset, List.map_append, List.nodup_append]
  refine ⟨((aerase_sublist l k).map Prod.fst).nodup h, by simp, ?_⟩
  intro x hx hx2
  simp only [List.map_cons, List.map_nil, List.mem_singleton] at hx2
  obtain ⟨p, hp, hpk⟩ := List.mem_map.mp hx
  have hnone := alookup_aerase_self l k
  rw [alookup_eq_none_iff] at hnone
  exact hnone p hp (hpk.trans hx2)

theorem keysNodup_amerge {κ β : Type} [DecidableEq κ] (a b : List (κ × β))
    (h : keysNodup a) : keysNodup (amerge a b) := by
  induction b generalizing a with
  | nil => exact h
  | cons p rest ih => exact ih (aset a p.1 p.2) (keysNodup_aset a p.1 p.2 h)

theorem alookup_amerge_none {κ β : Type} [DecidableEq κ] (a b : List (κ × β)) (k : κ)
    (h : alookup b k = none) : alookup (amerge a b) k = alookup a k := by
  induction b generalizing a with
  | nil => rfl
  | cons p rest ih =>
    rw [alookup_eq_none_iff] at h
    have hp : p.1 ≠ k := h p (List.mem_cons_self p rest)
    have hrest : alookup rest k = none := by
      rw [alookup_eq_none_iff]
      exact fun q hq => h q (List.mem_cons_of_mem p hq)
    show alookup (amerge (aset a p.1 p.2) rest) k = alookup a k
    rw [ih (aset a p.1 p.2) hrest, alookup_aset_ne a p.1 k p.2 (fun hc => hp hc.symm)]

theorem alookup_amerge_nodup {κ β : Type} [DecidableEq κ] (a b : List (κ × β)) (k : κ)
    (h : keysNodup b) :
    alookup (amerge a b) k = (alookup b k).orElse (fun _ => alookup a k) := by
  induction b generalizing a with
  | nil => simp [amerge, alookup, Option.orElse]
  | cons p rest ih =>
    unfold keysNodup at h
    simp only [List.map_cons, List.nodup_cons] at h
    obtain ⟨hp, hrest⟩ := h
    show alookup (amerge (aset a p.1 p.2) rest) k
        = (alookup (p :: rest) k).orElse (fun _ => alookup a k)
    by_cases hk : p.1 = k
    · subst hk
      have hnone : alookup rest p.1 = none := by
        rw [alookup_eq_none_iff]
        intro q hq hqk
        exact hp (List.mem_map.mpr ⟨q, hq, hqk⟩)
      rw [alookup_amerge_none _ _ _ hnone, alookup_aset_self]
      simp [alookup, Option.orElse]
    · rw [ih (aset a p.1 p.2) hrest, alookup_aset_ne a p.1 k p.2 (fun hc => hk hc.symm)]
      simp [alookup, hk]

theorem keysNodup_getProps (rec : SourceRecord) (names : List String) :
    keysNodup (getProps rec names) := by
  have main : ∀ (ns : List String) (acc : JsObj), keysNodup acc →
      keysNodup (List.foldl (fun acc n => aset acc n (rec.getVal n)) acc ns) := by
    intro ns
    induction ns with
    | nil => intro acc h; exact h
    | cons n rest ih => intro acc h; exact ih _ (keysNodup_aset acc n _ h)
  exact main names [] (by simp [keysNodup])

theorem alookup_getProps_notin (rec : SourceRecord) (names : List String) (k : String)
    (h : k ∉ names) : alookup (getProps rec names) k = none := by
  have main : ∀ (ns : List String) (acc : JsObj), k ∉ ns → alookup acc k = none →
      alookup (List.foldl (fun acc n => aset acc n (rec.getVal n)) acc ns) k = none := by
    intro ns
    induction ns with
    | nil => intro acc _ hacc; exact hacc
    | cons n rest ih =>
      intro acc hns hacc
      have hn : k ≠ n := fun hc => hns (hc ▸ List.mem_cons_self n rest)
      exact ih _ (fun hc => hns (List.mem_cons_of_mem n hc))
        (by rw [alookup_aset_ne acc n k _ hn]; exact hacc)
  exact main names [] h (by simp [alookup])

/-! ### Session-state preservation invariants -/

theorem PresTo_refl (st : St) : PresTo st st :=
  ⟨fun _ _ h => h, le_refl _, fun _ _ _ => rfl, fun _ _ => rfl⟩

theorem PresTo_trans {a b c : St} (h1 : PresTo a b) (h2 : PresTo b c) : PresTo a c := by
  obtain ⟨e1, n1, l1, p1⟩ := h1
  obtain ⟨e2, n2, l2, p2⟩ := h2
  refine ⟨fun g v h => e2 g v (e1 g v h), le_trans n1 n2, ?_, ?_⟩
  · intro x m hx
    rw [l2 x m (lt_of_lt_of_le hx n1), l1 x m hx]
  · intro x hx
    rw [p2 x (lt_of_lt_of_le hx n1), p1 x hx]

theorem RelOut_weaken {mG : Nat} {names : List String} {nm : String} {st out : St}
    (h : RelOut mG names st out) : RelOut mG (nm :: names) st out := by
  obtain ⟨he, hn, hl, hp⟩ := h
  refine ⟨he, hn, ?_, hp⟩
  intro c n hc hg
  refine hl c n hc ?_
  rcases hg with hg | hg
  · exact Or.inl hg
  · exact Or.inr (fun hmem => hg (List.mem_cons_of_mem _ hmem))

theorem RelOut_of_PresTo {mG : Nat} {names : List String} {st out : St}
    (h : PresTo st out) : RelOut mG names st out := by
  obtain ⟨he, hn, hl, hp⟩ := h
  exact ⟨he, hn, fun c n hc _ => hl c n hc, hp⟩

theorem RelOut_trans_pres {mG : Nat} {names : List String} {st st₁ out : St}
    (h1 : PresTo st st₁) (h2 : RelOut mG names st₁ out) : RelOut mG names st out := by
  obtain ⟨e1, n1, l1, p1⟩ := h1
  obtain ⟨e2, n2, l2, p2⟩ := h2
  refine ⟨fun g v h => e2 g v (e1 g v h), le_trans n1 n2, ?_, ?_⟩
  · intro c n hc hg
    rw [l2 c n (lt_of_lt_of_le hc n1) hg, l1 c n hc]
  · intro c hc
    rw [p2 c (lt_of_lt_of_le hc n1), p1 c hc]

theorem copiesExt_append (a : List (Nat × Nat)) (l : List (Nat × Nat)) :
    copiesExt a (a ++ l) := by
  intro g c h
  unfold lookupCopies at h ⊢
  rw [alookup_append]
  simp [h, Option.orElse]

theorem lookupCopies_register (copies : List (Nat × Nat)) (g m : Nat)
    (h : lookupCopies copies g = none) :
    lookupCopies (copies ++ [(g, m)]) g = some m := by
  rw [lookupCopies, alookup_append]
  rw [lookupCopies] at h
  simp [h, alookup, Option.orElse]

theorem missingS_mono (env : Env) {a b : List (Nat × Nat)} (h : copiesExt a b) :
    missingS env b ⊆ missingS env a := by
  intro x hx
  simp only [missingS, Finset.mem_filter, Finset.mem_range] at hx ⊢
  refine ⟨hx.1, ?_⟩
  cases ha : lookupCopies a x with
  | none => rfl
  | some c => rw [h x c ha] at hx; exact absurd hx.2 (by simp)

theorem missingS_card_le (env : Env) {a b : List (Nat × Nat)} (h : copiesExt a b) :
    (missingS env b).card ≤ (missingS env a).card :=
  Finset.card_le_card (missingS_mono env h)

theorem missingS_register (env : Env) (copies : List (Nat × Nat)) (g m : Nat)
    (hg : g < env.records.length) (hnone : lookupCopies copies g = none) :
    (missingS env (copies ++ [(g, m)])).card < (missingS env copies).card := by
  have hmem : g ∈ missingS env copies := by
    simp [missingS, Finset.mem_filter, Finset.mem_range, hg, hnone]
  have hsub : missingS env (copies ++ [(g, m)]) ⊆ (missingS env copies).erase g := by
    intro x hx
    simp only [missingS, Finset.mem_filter, Finset.mem_range] at hx
    rw [lookupCopies, alookup_append] at hx
    have hxg : x ≠ g := by
      intro hc
      subst hc
      rw [lookupCopies] at hnone
      simp [hnone, alookup, Option.orElse] at hx
    rcases hx with ⟨hx1, hx2⟩
    cases ha : alookup copies x with
    | none =>
      rw [Finset.mem_erase]
      exact ⟨hxg, by simp [missingS, Finset.mem_filter, Finset.mem_range, hx1, lookupCopies, ha]⟩
    | some c => simp [ha, Option.orElse] at hx2
  calc (missingS env (copies ++ [(g, m)])).card
      ≤ ((missingS env copies).erase g).card := Finset.card_le_card hsub
    _ < (missingS env copies).card := Finset.card_erase_lt_of_mem hmem

theorem get?_lt_length {α : Type} {l : List α} {n : Nat} {a : α}
    (h : l.get? n = some a) : n < l.length := by
  by_contra hc
  push_neg at hc
  rw [List.get?_eq_none.mpr hc] at h
  cases h

theorem linkLookup_addLink_ne (st : St) (c₀ : Nat) (n₀ : String) (v : Val)
    (c : Nat) (n : String) (h : ¬(c = c₀ ∧ n = n₀)) :
    linkLookup (addLink st c₀ n₀ v) c n = linkLookup st c n := by
  unfold linkLookup addLink
  rw [alookup_append]
  cases hl : alookup st.links (c, n) with
  | some w => simp [Option.orElse]
  | none =>
    have : (c₀, n₀) ≠ (c, n) := by
      intro hc
      exact h ⟨congrArg Prod.fst hc.symm, congrArg Prod.snd hc.symm⟩
    simp [Option.orElse, alookup, this]

theorem linkLookup_addLink_self (st : St) (c₀ : Nat) (n₀ : String) (v : Val)
    (h : linkLookup st c₀ n₀ = none) :
    linkLookup (addLink st c₀ n₀ v) c₀ n₀ = some v := by
  unfold linkLookup addLink
  unfold linkLookup at h
  rw [alookup_append, h]
  simp [alookup, Option.orElse]

theorem propsLookup_setProps_ne (st : St) (m : Nat) (attrs : JsObj) (c : Nat)
    (h : c ≠ m) : propsLookup (setPropsSt st m attrs) c = propsLookup st c := by
  unfold propsLookup setPropsSt
  exact alookup_aset_ne _ _ _ _ h

theorem propsLookup_setProps_self (st : St) (m : Nat) (attrs : JsObj) :
    propsLookup (setPropsSt st m attrs) m
      = some (amerge ((propsLookup st m).getD []) attrs) := by
  unfold propsLookup setPropsSt
  exact alookup_aset_self _ _ _

theorem membersLoop_pres (env : Env) (child : Child) (dR : Bool)
    (rOpts : Option POptions) (hc : ChildPres child) :
    ∀ (ms : List Val) (st : St),
      PresTo st (membersLoop env child dR rOpts ms st).2 := by
  intro ms
  induction ms with
  | nil => intro st; exact PresTo_refl st
  | cons v rest ih =>
    intro st
    simp only [membersLoop]
    split
    · next g =>
      split
      · split
        · next c st₁ heq =>
          have h1 := hc g dR rOpts st
          rw [heq] at h1
          split
          · next cs st₂ heq2 =>
            have h2 := ih st₁
            rw [heq2] at h2
            exact PresTo_trans h1 h2
          · next e st₂ heq2 =>
            have h2 := ih st₁
            rw [heq2] at h2
            exact PresTo_trans h1 h2
        · next e st₁ heq =>
          have h1 := hc g dR rOpts st
          rw [heq] at h1
          exact h1
      · split
        · next cs st₁ heq =>
          have h1 := ih st
          rw [heq] at h1
          exact h1
        · next e st₁ heq =>
          have h1 := ih st
          rw [heq] at h1
          exact h1
    · split
      · next cs st₁ heq =>
        have h1 := ih st
        rw [heq] at h1
        exact h1
      · next e st₁ heq =>
        have h1 := ih st
        rw [heq] at h1
        exact h1

theorem hasManyDeepCopy_pres (env : Env) (child : Child) (dR : Bool)
    (rOpts : Option POptions) (hc : ChildPres child) (value : Val) (st : St) :
    PresTo st (hasManyDeepCopy env child dR rOpts value st).2 := by
  simp only [hasManyDeepCopy]
  split
  · split
    · split
      · next cs st₁ heq =>
        have h1 := membersLoop_pres env child dR rOpts hc (listElemsOf value) st
        rw [heq] at h1
        exact h1
      · next e st₁ heq =>
        have h1 := membersLoop_pres env child dR rOpts hc (listElemsOf value) st
        rw [heq] at h1
        exact h1
    · exact PresTo_refl st
  · exact PresTo_refl st

theorem childPres_of_eq {child : Child} (hc : ChildPres child) {g : Nat} {d : Bool}
    {p : Option POptions} {st : St} {r : Except CopyErr Nat} {st₁ : St}
    (heq : child g d p st = (r, st₁)) : PresTo st st₁ := by
  have h := hc g d p st
  rw [heq] at h
  exact h

theorem membersPres_of_eq {env : Env} {child : Child} {dR : Bool}
    {rOpts : Option POptions} (hc : ChildPres child) {ms : List Val} {st : St}
    {r : Except CopyErr (List Val)} {st₁ : St}
    (heq : membersLoop env child dR rOpts ms st = (r, st₁)) : PresTo st st₁ := by
  have h := membersLoop_pres env child dR rOpts hc ms st
  rw [heq] at h
  exact h

theorem hasManyPres_of_eq {env : Env} {child : Child} {dR : Bool}
    {rOpts : Option POptions} (hc : ChildPres child) {value : Val} {st : St}
    {r : Except CopyErr Val} {st₁ : St}
    (heq : hasManyDeepCopy env child dR rOpts value st = (r, st₁)) : PresTo st st₁ := by
  have h := hasManyDeepCopy_pres env child dR rOpts hc value st
  rw [heq] at h
  exact h

theorem RelOut_addLink {mG : Nat} {names : List String} {nm : String} {st out : St}
    {v : Val} (h : RelOut mG names (addLink st mG nm v) out) :
    RelOut mG (nm :: names) st out := by
  obtain ⟨he, hn, hl, hp⟩ := h
  refine ⟨he, hn, ?_, hp⟩
  intro c n hc hg
  have hne : ¬(c = mG ∧ n = nm) := by
    rcases hg with hg | hg
    · exact fun hcc => hg hcc.1
    · exact fun hcc => hg (hcc.2 ▸ List.mem_cons_self nm names)
  have hg' : c ≠ mG ∨ n ∉ names := by
    rcases hg with hg | hg
    · exact Or.inl hg
    · exact Or.inr (fun hmem => hg (List.mem_cons_of_mem _ hmem))
  rw [hl c n hc hg', linkLookup_addLink_ne st mG nm v c n hne]

theorem relsLoop_pres (env : Env) (child : Child) (rec : SourceRecord) (mG : Nat)
    (deep : Bool) (o : MOptions) (hc : ChildPres child) :
    ∀ (rels : List RelDef) (rA : JsObj) (st : St),
      RelOut mG (rels.map RelDef.name) st
        (relsLoop env child rec mG deep o rels rA st).2 := by
  intro rels
  induction rels with
  | nil => intro rA st; exact RelOut_of_PresTo (PresTo_refl st)
  | cons r rest ih =>
    intro rA st
    simp only [relsLoop, List.map_cons]
    split
    · exact RelOut_weaken (ih _ st)
    · split
      · split
        · exact RelOut_addLink (ih rA (addLink st mG r.name (rec.getVal r.name)))
        · exact RelOut_weaken (ih _ st)
      · split
        · split
          · split
            · split
              · next c st₁ heq =>
                exact RelOut_weaken
                  (RelOut_trans_pres (childPres_of_eq hc heq) (ih _ st₁))
              · next e st₁ heq =>
                exact RelOut_of_PresTo (childPres_of_eq hc heq)
            · exact RelOut_weaken (ih _ st)
          · exact RelOut_weaken (ih _ st)
        · split
          · next w st₁ heq =>
            exact RelOut_weaken
              (RelOut_trans_pres (hasManyPres_of_eq hc heq) (ih _ st₁))
          · next e st₁ heq =>
            exact RelOut_of_PresTo (hasManyPres_of_eq hc heq)

theorem relOut_of_eq {env : Env} {child : Child} {rec : SourceRecord} {mG : Nat}
    {deep : Bool} {o : MOptions} (hc : ChildPres child) {rels : List RelDef}
    {rA : JsObj} {st : St} {r : Except CopyErr JsObj} {st₁ : St}
    (heq : relsLoop env child rec mG deep o rels rA st = (r, st₁)) :
    RelOut mG (rels.map RelDef.name) st st₁ := by
  have h := relsLoop_pres env child rec mG deep o hc rels rA st
  rw [heq] at h
  exact h

theorem allocModel_fst (rec : SourceRecord) (o : MOptions) (st : St) :
    (allocModel rec o st).1 = st.nextGuid := by
  unfold allocModel
  split <;> rfl

theorem allocModel_copies (rec : SourceRecord) (o : MOptions) (st : St) :
    (allocModel rec o st).2.copies = st.copies := by
  unfold allocModel
  split <;> rfl

theorem allocModel_links (rec : SourceRecord) (o : MOptions) (st : St) :
    (allocModel rec o st).2.links = st.links := by
  unfold allocModel
  split <;> rfl

theorem allocModel_props (rec : SourceRecord) (o : MOptions) (st : St) :
    (allocModel rec o st).2.props = st.props := by
  unfold allocModel
  split <;> rfl

theorem allocModel_nextGuid (rec : SourceRecord) (o : MOptions) (st : St) :
    (allocModel rec o st).2.nextGuid = st.nextGuid + 1 := by
  unfold allocModel
  split <;> rfl

theorem allocModel_recCalls (rec : SourceRecord) (o : MOptions) (st : St) :
    (allocModel rec o st).2.recCalls = st.recCalls := by
  unfold allocModel
  split <;> rfl

theorem allocModel_transforms (rec : SourceRecord) (o : MOptions) (st : St) :
    (allocModel rec o st).2.transforms = st.transforms := by
  unfold allocModel
  split <;> rfl

theorem PresTo_mk {st out : St} (hcop : copiesExt st.copies out.copies)
    (hn : st.nextGuid ≤ out.nextGuid) (hl : out.links = st.links)
    (hp : out.props = st.props) : PresTo st out := by
  refine ⟨hcop, hn, ?_, ?_⟩
  · intro c n _
    unfold linkLookup
    rw [hl]
  · intro c _
    unfold propsLookup
    rw [hp]

theorem PresTo_of_relOut {mG : Nat} {names : List String} {st st₃ st₄ : St}
    (h1 : PresTo st st₃) (hmg : st.nextGuid ≤ mG) (h2 : RelOut mG names st₃ st₄) :
    PresTo st st₄ := by
  obtain ⟨e1, n1, l1, p1⟩ := h1
  obtain ⟨e2, n2, l2, p2⟩ := h2
  refine ⟨fun g v h => e2 g v (e1 g v h), le_trans n1 n2, ?_, ?_⟩
  · intro c n hc
    have hcm : c ≠ mG := Nat.ne_of_lt (lt_of_lt_of_le hc hmg)
    rw [l2 c n (lt_of_lt_of_le hc n1) (Or.inl hcm), l1 c n hc]
  · intro c hc
    rw [p2 c (lt_of_lt_of_le hc n1), p1 c hc]

theorem copyTask_pres (env : Env) :
    ∀ (fuel : Nat), ∀ (g : Nat) (deep : Bool) (popts : Option POptions) (st : St),
      PresTo st (copyTask env fuel g deep popts st).2 := by
  intro fuel
  induction fuel with
  | zero => intro g deep popts st; exact PresTo_refl st
  | succ fuel ih =>
    intro g deep popts st
    simp only [copyTask]
    split
    · exact ⟨fun _ _ h => h, le_refl _, fun _ _ _ => rfl, fun _ _ => rfl⟩
    · next rec _ =>
      split
      · exact ⟨fun _ _ h => h, le_refl _, fun _ _ _ => rfl, fun _ _ => rfl⟩
      · next hmemo =>
        have hpres₂ : PresTo st
            { (allocModel rec (mergeOptions rec.copyableOptions popts)
                { st with recCalls := st.recCalls + 1 }).2 with
              copies := (allocModel rec (mergeOptions rec.copyableOptions popts)
                { st with recCalls := st.recCalls + 1 }).2.copies ++
                [(g, (allocModel rec (mergeOptions rec.copyableOptions popts)
                  { st with recCalls := st.recCalls + 1 }).1)] } := by
          refine PresTo_mk ?_ ?_ ?_ ?_
          · rw [allocModel_copies]
            exact copiesExt_append st.copies _
          · rw [allocModel_nextGuid]
            exact Nat.le_succ _
          · rw [allocModel_links]
          · rw [allocModel_props]
        split
        · exact hpres₂
        · next dAttrs tcache _ =>
          have hpres₃ : PresTo st
              { (allocModel rec (mergeOptions rec.copyableOptions popts)
                  { st with recCalls := st.recCalls + 1 }).2 with
                copies := (allocModel rec (mergeOptions rec.copyableOptions popts)
                  { st with recCalls := st.recCalls + 1 }).2.copies ++
                  [(g, (allocModel rec (mergeOptions rec.copyableOptions popts)
                    { st with recCalls := st.recCalls + 1 }).1)],
                transforms := tcache } := by
            refine PresTo_mk ?_ ?_ ?_ ?_
            · rw [allocModel_copies]
              exact copiesExt_append st.copies _
            · rw [allocModel_nextGuid]
              exact Nat.le_succ _
            · rw [allocModel_links]
            · rw [allocModel_props]
          split
          · next e st₄ heq =>
            refine PresTo_of_relOut hpres₃ ?_ (relOut_of_eq ih heq)
            rw [allocModel_fst]
          · next rAttrs st₄ heq =>
            have h4 : PresTo st st₄ := by
              refine PresTo_of_relOut hpres₃ ?_ (relOut_of_eq ih heq)
              rw [allocModel_fst]
            obtain ⟨e4, n4, l4, p4⟩ := h4
            refine ⟨e4, n4, fun c n hc => l4 c n hc, ?_⟩
            intro c hc
            have hcm : c ≠ (allocModel rec (mergeOptions rec.copyableOptions popts)
                { st with recCalls := st.recCalls + 1 }).1 := by
              rw [allocModel_fst]
              exact Nat.ne_of_lt hc
            exact (propsLookup_setProps_ne st₄ _ _ c hcm).trans (p4 c hc)

theorem copyTask_childPres (env : Env) (fuel : Nat) : ChildPres (copyTask env fuel) :=
  fun g d p st => copyTask_pres env fuel g d p st

theorem childFuel_of_eq {env : Env} {F : Nat} {child : Child}
    (hf : ChildFuel env F child) {g : Nat} {d : Bool} {p : Option POptions}
    {st : St} {e : CopyErr} {st₁ : St}
    (heq : child g d p st = (Except.error e, st₁))
    (hcard : (missingS env st.copies).card < F) : e ≠ CopyErr.fuel := by
  intro hfe
  subst hfe
  exact hf g d p st hcard (by rw [heq])

theorem card_lt_of_presTo {env : Env} {F : Nat} {st st₁ : St} (h : PresTo st st₁)
    (hcard : (missingS env st.copies).card < F) :
    (missingS env st₁.copies).card < F :=
  lt_of_le_of_lt (missingS_card_le env h.1) hcard

theorem membersLoop_nofuel {env : Env} {child : Child} {dR : Bool}
    {rOpts : Option POptions} {F : Nat} (hc : ChildPres child)
    (hf : ChildFuel env F child) :
    ∀ (ms : List Val) (st : St), (missingS env st.copies).card < F →
      (membersLoop env child dR rOpts ms st).1 ≠ Except.error CopyErr.fuel := by
  intro ms
  induction ms with
  | nil => intro st _ h; cases h
  | cons v rest ih =>
    intro st hcard
    simp only [membersLoop]
    split
    · next g =>
      split
      · split
        · next c st₁ heq =>
          have hcard₁ := card_lt_of_presTo (childPres_of_eq hc heq) hcard
          split
          · next cs st₂ heq2 => intro h; cases h
          · next e st₂ heq2 =>
            dsimp only
            intro hcontra
            exact ih st₁ hcard₁ (by rw [heq2]; exact hcontra)
        · next e st₁ heq =>
          dsimp only
          intro hcontra
          exact childFuel_of_eq hf heq hcard (Except.error.inj hcontra)
      · split
        · next cs st₁ heq => intro h; cases h
        · next e st₁ heq =>
          dsimp only
          intro hcontra
          exact ih st hcard (by rw [heq]; exact hcontra)
    · split
      · next cs st₁ heq => intro h; cases h
      · next e st₁ heq =>
        dsimp only
        intro hcontra
        exact ih st hcard (by rw [heq]; exact hcontra)

theorem membersFuel_of_eq {env : Env} {child : Child} {dR : Bool}
    {rOpts : Option POptions} {F : Nat} (hc : ChildPres child)
    (hf : ChildFuel env F child) {ms : List Val} {st : St} {e : CopyErr} {st₁ : St}
    (heq : membersLoop env child dR rOpts ms st = (Except.error e, st₁))
    (hcard : (missingS env st.copies).card < F) : e ≠ CopyErr.fuel := by
  intro hfe
  subst hfe
  exact membersLoop_nofuel hc hf ms st hcard (by rw [heq])

theorem hasManyFuel_of_eq {env : Env} {child : Child} {dR : Bool}
    {rOpts : Option POptions} {F : Nat} (hc : ChildPres child)
    (hf : ChildFuel env F child) {value : Val} {st : St} {e : CopyErr} {st₁ : St}
    (heq : hasManyDeepCopy env child dR rOpts value st = (Except.error e, st₁))
    (hcard : (missingS env st.copies).card < F) : e ≠ CopyErr.fuel := by
  intro hfe
  subst hfe
  unfold hasManyDeepCopy at heq
  split at heq
  · split at heq
    · split at heq
      · cases heq
      · next e2 st₂ heq2 =>
        have hfst := congrArg Prod.fst heq
        dsimp only at hfst
        have he : e2 = CopyErr.fuel := Except.error.inj hfst
        subst he
        exact membersLoop_nofuel hc hf (listElemsOf value) st hcard (by rw [heq2])
    · cases heq
  · cases heq

theorem relsLoop_nofuel {env : Env} {child : Child} {rec : SourceRecord} {mG : Nat}
    {deep : Bool} {o : MOptions} {F : Nat} (hc : ChildPres child)
    (hf : ChildFuel env F child) :
    ∀ (rels : List RelDef) (rA : JsObj) (st : St),
      (missingS env st.copies).card < F →
      (relsLoop env child rec mG deep o rels rA st).1 ≠ Except.error CopyErr.fuel := by
  intro rels
  induction rels with
  | nil => intro rA st _ h; cases h
  | cons r rest ih =>
    intro rA st hcard
    simp only [relsLoop]
    split
    · exact ih _ st hcard
    · split
      · split
        · exact ih rA _ hcard
        · exact ih _ st hcard
      · split
        · split
          · split
            · split
              · next c st₁ heq =>
                exact ih _ st₁ (card_lt_of_presTo (childPres_of_eq hc heq) hcard)
              · next e st₁ heq =>
                dsimp only
                intro hcontra
                exact childFuel_of_eq hf heq hcard (Except.error.inj hcontra)
            · exact ih _ st hcard
          · exact ih _ st hcard
        · split
          · next w st₁ heq =>
            exact ih _ st₁ (card_lt_of_presTo (hasManyPres_of_eq hc heq) hcard)
          · next e st₁ heq =>
            dsimp only
            intro hcontra
            exact hasManyFuel_of_eq hc hf heq hcard (Except.error.inj hcontra)

theorem relsFuel_of_eq {env : Env} {child : Child} {rec : SourceRecord} {mG : Nat}
    {deep : Bool} {o : MOptions} {F : Nat} (hc : ChildPres child)
    (hf : ChildFuel env F child) {rels : List RelDef} {rA : JsObj} {st : St}
    {e : CopyErr} {st₁ : St}
    (heq : relsLoop env child rec mG deep o rels rA st = (Except.error e, st₁))
    (hcard : (missingS env st.copies).card < F) : e ≠ CopyErr.fuel := by
  intro hfe
  subst hfe
  exact relsLoop_nofuel hc hf rels rA st hcard (by rw [heq])

theorem copyTask_nofuel (env : Env) :
    ∀ (fuel : Nat), ∀ (g : Nat) (deep : Bool) (popts : Option POptions) (st : St),
      (missingS env st.copies).card < fuel →
      (copyTask env fuel g deep popts st).1 ≠ Except.error CopyErr.fuel := by
  intro fuel
  induction fuel with
  | zero => intro g deep popts st hcard; exact absurd hcard (Nat.not_lt_zero _)
  | succ fuel ih =>
    intro g deep popts st hcard
    simp only [copyTask]
    split
    · dsimp only
      intro h
      exact CopyErr.noConfusion (Except.error.inj h)
    · next rec hrec =>
      split
      · dsimp only
        intro h
        exact Except.noConfusion h
      · next hmemo =>
        have hg : g < env.records.length := get?_lt_length hrec
        have hm : lookupCopies st.copies g = none := hmemo
        have hcard₂ : (missingS env
            ((allocModel rec (mergeOptions rec.copyableOptions popts)
              { st with recCalls := st.recCalls + 1 }).2.copies ++
              [(g, (allocModel rec (mergeOptions rec.copyableOptions popts)
                { st with recCalls := st.recCalls + 1 }).1)])).card < fuel := by
          have hcc : ({ st with recCalls := st.recCalls + 1 } : St).copies
              = st.copies := rfl
          rw [allocModel_copies, hcc]
          have hlt := missingS_register env st.copies g
            (allocModel rec (mergeOptions rec.copyableOptions popts)
              { st with recCalls := st.recCalls + 1 }).1 hg hm
          omega
        split
        · dsimp only
          intro h
          exact CopyErr.noConfusion (Except.error.inj h)
        · next dAttrs tcache _ =>
          split
          · next e st₄ heq =>
            dsimp only
            intro hcontra
            exact relsFuel_of_eq (copyTask_childPres env fuel) ih heq hcard₂
              (Except.error.inj hcontra)
          · next rAttrs st₄ heq =>
            dsimp only
            intro h
            exact Except.noConfusion h

theorem copyTask_records (env : Env) (fuel g : Nat) (deep : Bool)
    (popts : Option POptions) (st : St) (c : Nat)
    (hok : (copyTask env fuel g deep popts st).1 = Except.ok c) :
    lookupCopies (copyTask env fuel g deep popts st).2.copies g = some c := by
  match fuel with
  | 0 => exact Except.noConfusion hok
  | fuel + 1 =>
    simp only [copyTask] at hok ⊢
    split at hok
    · exact Except.noConfusion hok
    · next rec hrec =>
      split at hok
      · next c' hmemo =>
        obtain rfl : c' = c := Except.ok.inj hok
        exact hmemo
      · next hmemo =>
        split at hok
        · exact Except.noConfusion hok
        · next dAttrs tcache heqa =>
          split at hok
          · exact Except.noConfusion hok
          · next rAttrs st₄ heq =>
            obtain rfl : (allocModel rec (mergeOptions rec.copyableOptions popts)
                { st with recCalls := st.recCalls + 1 }).1 = c := Except.ok.inj hok
            have hreg : lookupCopies
                ((allocModel rec (mergeOptions rec.copyableOptions popts)
                  { st with recCalls := st.recCalls + 1 }).2.copies ++
                  [(g, (allocModel rec (mergeOptions rec.copyableOptions popts)
                    { st with recCalls := st.recCalls + 1 }).1)]) g
                = some (allocModel rec (mergeOptions rec.copyableOptions popts)
                  { st with recCalls := st.recCalls + 1 }).1 := by
              rw [allocModel_copies]
              exact lookupCopies_register st.copies g _ hmemo
            have hext := (relOut_of_eq (copyTask_childPres env fuel) heq).1
            exact hext g _ hreg

theorem propsLookup_none_of_wf {st : St} (hwf : StWF st) {m : Nat}
    (hm : st.nextGuid ≤ m) : propsLookup st m = none := by
  cases h : propsLookup st m with
  | none => rfl
  | some o =>
    have hmem := alookup_mem h
    have h2 := hwf.2 (m, o) hmem
    simp only at h2
    omega

theorem linkLookup_none_of_wf {st : St} (hwf : StWF st) {c : Nat} {n : String}
    (hc : st.nextGuid ≤ c) : linkLookup st c n = none := by
  cases h : linkLookup st c n with
  | none => rfl
  | some v =>
    have hmem := alookup_mem h
    have h2 := hwf.1 ((c, n), v) hmem
    simp only at h2
    omega

/-- On a fresh (memo-miss) visit, a successful `COPY_TASK` run decomposes
into: target allocation and registration, the attribute pass, the
relationship pass, and the final merged `setProperties`. -/
theorem copyTask_success_shape (env : Env) (fuel g : Nat) (deep : Bool)
    (popts : Option POptions) (st : St) (rec : SourceRecord) (m : Nat) (st' : St)
    (hrec : env.records.get? g = some rec)
    (hmemo : lookupCopies st.copies g = none)
    (hok : copyTask env (fuel + 1) g deep popts st = (Except.ok m, st')) :
    m = st.nextGuid ∧
    m = (allocModel rec (mergeOptions rec.copyableOptions popts) (stEnter st)).1 ∧
    ∃ (dAttrs : JsObj) (tcache : List String) (rAttrs : JsObj) (st₄ : St),
      attrsLoop env rec deep (mergeOptions rec.copyableOptions popts) rec.attrs []
        (stRegistered rec (mergeOptions rec.copyableOptions popts) g st).transforms
        = Except.ok (dAttrs, tcache) ∧
      relsLoop env (copyTask env fuel) rec
        (allocModel rec (mergeOptions rec.copyableOptions popts) (stEnter st)).1
        deep (mergeOptions rec.copyableOptions popts)
        (relsOf rec (mergeOptions rec.copyableOptions popts)) []
        { stRegistered rec (mergeOptions rec.copyableOptions popts) g st with
          transforms := tcache }
        = (Except.ok rAttrs, st₄) ∧
      st' = setPropsSt st₄
        (allocModel rec (mergeOptions rec.copyableOptions popts) (stEnter st)).1
        (finalAttrs rec (mergeOptions rec.copyableOptions popts) dAttrs rAttrs) := by
  simp only [copyTask, hrec, hmemo] at hok
  split at hok
  · exact Except.noConfusion (congrArg Prod.fst hok)
  · next dAttrs tcache heqa =>
    split at hok
    · next e st₄ heq =>
      exact Except.noConfusion (congrArg Prod.fst hok)
    · next rAttrs st₄ heq =>
      have hm : (allocModel rec (mergeOptions rec.copyableOptions popts)
          (stEnter st)).1 = m := Except.ok.inj (congrArg Prod.fst hok)
      have hst : st' = setPropsSt st₄
          (allocModel rec (mergeOptions rec.copyableOptions popts) (stEnter st)).1
          (finalAttrs rec (mergeOptions rec.copyableOptions popts) dAttrs rAttrs) :=
        (congrArg Prod.snd hok).symm
      refine ⟨?_, hm.symm, dAttrs, tcache, rAttrs, st₄, heqa, heq, hst⟩
      have hng : (stEnter st).nextGuid = st.nextGuid := rfl
      rw [← hm, allocModel_fst, hng]

/-! ### Rollback helpers -/

theorem alookup_filter_ne_self (l : List (Nat × String)) (g : Nat) :
    alookup (l.filter (fun p => decide (p.1 ≠ g))) g = none := by
  rw [alookup_eq_none_iff]
  intro p hp
  have := List.of_mem_filter hp
  exact of_decide_eq_true this

theorem alookup_filter_none (l : List (Nat × String)) (q : Nat × String → Bool)
    (g : Nat) (h : alookup l g = none) : alookup (l.filter q) g = none := by
  rw [alookup_eq_none_iff] at h ⊢
  intro p hp
  exact h p (List.mem_of_mem_filter hp)

theorem unloadAll_preserves_none (gs : List Nat) (st : St) (x : Nat)
    (h : alookup st.storeRecs x = none) :
    alookup (unloadAll st gs).storeRecs x = none := by
  induction gs generalizing st with
  | nil => exact h
  | cons g rest ih =>
    exact ih (unloadRecordSt st g) (alookup_filter_none _ _ _ h)

theorem unloadAll_lookup_none (gs : List Nat) (st : St) (x : Nat) (hx : x ∈ gs) :
    alookup (unloadAll st gs).storeRecs x = none := by
  induction gs generalizing st with
  | nil => cases hx
  | cons g rest ih =>
    by_cases hxr : x ∈ rest
    · exact ih (unloadRecordSt st g) hxr
    · have hxg : x = g := by
        rcases List.mem_cons.mp hx with h | h
        · exact h
        · exact absurd h hxr
      subst hxg
      exact unloadAll_preserves_none rest (unloadRecordSt st x) x
        (alookup_filter_ne_self st.storeRecs x)

/-! ### The claims -/

/-- C9: at most one top-level copy per record instance is in flight — a
`copy()` performed while this record's runner task is already executing
(`busy`) is dropped by the `.drop()` policy without ever starting: it
returns the dropped outcome and leaves the store, session and every clone
table untouched. -/
theorem c9_single_flight_drop (env : Env) (fuel : Nat) (g : Nat) (deep : Bool)
    (popts : Option POptions) (st : St) :
    performCopy env fuel true g deep popts st = (PerformOutcome.dropped, st) := rfl

/-- C1: if the session's `copies` map already records a clone `c` for the
source identity `s`, a repeat visit of the Copy Task returns exactly that
clone instance and leaves the map unchanged, so shared sub-objects in the
source graph map to one shared clone. -/
theorem c1_memo_identity (env : Env) (fuel s : Nat) (deep : Bool)
    (popts : Option POptions) (st : St) (rec : SourceRecord) (c : Nat)
    (hrec : env.records.get? s = some rec)
    (hc : lookupCopies st.copies s = some c) :
    (copyTask env (fuel + 1) s deep popts st).1 = Except.ok c ∧
    (copyTask env (fuel + 1) s deep popts st).2.copies = st.copies := by
  have hrec' : env.records[s]? = some rec := by
    rw [← List.get?_eq_getElem?]
    exact hrec
  simp [copyTask, hrec', hc]

theorem c1_memo_identity_witness :
    (copyTask envW 5 0 true none stC1).1 = Except.ok 55 :=
  (c1_memo_identity envW 4 0 true none stC1 wPost 55 rfl rfl).1

/-- C2: cycle termination — with any fuel budget exceeding the number of
records in the graph (in particular for graphs with relationship cycles of
length ≥ 2), the Copy Task started on a fresh session never exhausts its
fuel: recursion depth is bounded because every fresh visit registers its
clone in `copies` before copying any field, so a cyclic reference resolves
through the memo instead of recursing. -/
theorem c2_cycle_termination (env : Env) (fuel g : Nat) (deep : Bool)
    (popts : Option POptions) (st : St)
    (hfuel : env.records.length < fuel) :
    (copyTask env fuel g deep popts (freshMeta st)).1 ≠ Except.error CopyErr.fuel := by
  have hcard : (missingS env (freshMeta st).copies).card < fuel := by
    have he : missingS env (freshMeta st).copies = Finset.range env.records.length := by
      unfold missingS
      exact Finset.filter_true_of_mem (fun x _ => rfl)
    rw [he, Finset.card_range]
    exact hfuel
  exact copyTask_nofuel env fuel g deep popts (freshMeta st) hcard

theorem c2_cycle_termination_witness :
    envCyc.records.length < 3 ∧
    (copyTask envCyc 3 0 true none (freshMeta st0)).1 ≠ Except.error CopyErr.fuel :=
  ⟨by decide, c2_cycle_termination envCyc 3 0 true none st0 (by decide)⟩

/-- C3: rollback on failure — whenever the Copy Task fails with an error,
the runner unloads from the store every clone recorded in the session's
`copies` map during that invocation, and the call fails with the
originating error (re-raised as JS `throw new Error(e)` does); no partial
result is returned. -/
theorem c3_rollback_on_failure (env : Env) (fuel g : Nat) (deep : Bool)
    (popts : Option POptions) (st : St) (e : CopyErr) (st₁ : St)
    (herr : copyTask env fuel g deep popts (freshMeta st) = (Except.error e, st₁)) :
    (copyTaskRunner env fuel g deep popts st).1 = Except.error (wrapErr e) ∧
    ∀ p ∈ st₁.copies,
      alookup (copyTaskRunner env fuel g deep popts st).2.storeRecs p.2 = none := by
  unfold copyTaskRunner
  rw [herr]
  refine ⟨rfl, ?_⟩
  intro p hp
  exact unloadAll_lookup_none (st₁.copies.map (fun q => q.2)) st₁ p.2
    (List.mem_map_of_mem _ hp)

theorem c3_rollback_on_failure_witness :
    (copyTaskRunner envFail 2 0 true none st0).1
      = Except.error (wrapErr (CopyErr.js "boom")) :=
  (c3_rollback_on_failure envFail 2 0 true none st0 (CopyErr.js "boom") _ rfl).1

/-! ### Tracking the per-field passes -/

theorem contains_iff_mem_str (l : List String) (a : String) :
    l.contains a = true ↔ a ∈ l := by
  induction l with
  | nil => simp
  | cons x rest ih =>
    simp only [List.contains_cons, Bool.or_eq_true, beq_iff_eq, List.mem_cons, ih]

theorem attrStep_lookup (env : Env) (rec : SourceRecord) (deep : Bool)
    (o : MOptions) (a : AttrDef) (dA : JsObj) (tc : List String)
    (dA' : JsObj) (tc' : List String)
    (h : attrStep env rec deep o a dA tc = Except.ok (dA', tc')) (k : String)
    (hk : a.name = k → o.ignoreAttributes.contains a.name = true) :
    alookup dA' k = alookup dA k := by
  unfold attrStep at h
  by_cases hic : o.ignoreAttributes.contains a.name = true
  · rw [if_pos hic] at h
    have hda : dA = dA' := congrArg Prod.fst (Except.ok.inj h)
    rw [← hda]
  · have hka : k ≠ a.name := fun hc => hic (hk hc.symm)
    rw [if_neg hic] at h
    by_cases hov : (!isUndefined (jsIndex o.overwrite a.name)) = true
    · rw [if_pos hov] at h
      have hda : aset dA a.name (jsIndex o.overwrite a.name) = dA' :=
        congrArg Prod.fst (Except.ok.inj h)
      rw [← hda, alookup_aset_ne _ _ _ _ hka]
    · rw [if_neg hov] at h
      by_cases hc3 : (!(isEmptyType a.type) && !(o.copyByReference.contains a.name)
          && !(PRIMITIVE_TYPES.contains ((a.type).getD ""))) = true
      · rw [if_pos hc3] at h
        by_cases hdet : env.detectCopyable (rec.getVal a.name) = true
        · rw [if_pos hdet] at h
          have hda : aset dA a.name (env.copyValue deep (rec.getVal a.name)) = dA' :=
            congrArg Prod.fst (Except.ok.inj h)
          rw [← hda, alookup_aset_ne _ _ _ _ hka]
        · rw [if_neg hdet] at h
          cases htr : env.transform ((a.type).getD "") a.attrOptions (rec.getVal a.name) with
          | ok v =>
            rw [htr] at h
            have hda : aset dA a.name v = dA' := congrArg Prod.fst (Except.ok.inj h)
            rw [← hda, alookup_aset_ne _ _ _ _ hka]
          | error e =>
            rw [htr] at h
            exact Except.noConfusion h
      · rw [if_neg hc3] at h
        have hda : aset dA a.name (rec.getVal a.name) = dA' :=
          congrArg Prod.fst (Except.ok.inj h)
        rw [← hda, alookup_aset_ne _ _ _ _ hka]

theorem attrsLoop_ignored (env : Env) (rec : SourceRecord) (deep : Bool)
    (o : MOptions) (k : String) (hk : k ∈ o.ignoreAttributes) :
    ∀ (atts : List AttrDef) (dA : JsObj) (tc : List String) (dA' : JsObj)
      (tc' : List String),
      attrsLoop env rec deep o atts dA tc = Except.ok (dA', tc') →
      alookup dA' k = alookup dA k := by
  intro atts
  induction atts with
  | nil =>
    intro dA tc dA' tc' h
    have h1 : dA = dA' := congrArg Prod.fst (Except.ok.inj h)
    rw [h1]
  | cons a rest ih =>
    intro dA tc dA' tc' h
    simp only [attrsLoop] at h
    split at h
    · next d₁ t₁ hstep =>
      rw [ih d₁ t₁ dA' tc' h]
      exact attrStep_lookup env rec deep o a dA tc d₁ t₁ hstep k
        (fun hak => (contains_iff_mem_str _ _).mpr (hak ▸ hk))
    · exact Except.noConfusion h

theorem relsLoop_rA_notin (env : Env) (child : Child) (rec : SourceRecord)
    (mG : Nat) (deep : Bool) (o : MOptions) (k : String) :
    ∀ (rels : List RelDef) (rA : JsObj) (st : St) (rOut : JsObj) (st' : St),
      k ∉ rels.map RelDef.name →
      relsLoop env child rec mG deep o rels rA st = (Except.ok rOut, st') →
      alookup rOut k = alookup rA k := by
  intro rels
  induction rels with
  | nil =>
    intro rA st rOut st' _ h
    have := congrArg Prod.fst h
    rw [← Except.ok.inj this]
  | cons r rest ih =>
    intro rA st rOut st' hk h
    have hkr : k ≠ r.name := by
      intro hc
      exact hk (by
        rw [hc]
        exact List.mem_map_of_mem RelDef.name (List.mem_cons_self r rest))
    have hkrest : k ∉ rest.map RelDef.name := by
      intro hc
      apply hk
      simp only [List.map_cons, List.mem_cons]
      exact Or.inr hc
    simp only [relsLoop] at h
    split at h
    · rw [ih _ _ _ _ hkrest h, alookup_aset_ne _ _ _ _ hkr]
    · split at h
      · split at h
        · exact ih _ _ _ _ hkrest h
        · rw [ih _ _ _ _ hkrest h, alookup_aset_ne _ _ _ _ hkr]
      · split at h
        · split at h
          · split at h
            · split at h
              · rw [ih _ _ _ _ hkrest h, alookup_aset_ne _ _ _ _ hkr]
              · exact Except.noConfusion (congrArg Prod.fst h)
            · rw [ih _ _ _ _ hkrest h, alookup_aset_ne _ _ _ _ hkr]
          · rw [ih _ _ _ _ hkrest h, alookup_aset_ne _ _ _ _ hkr]
        · split at h
          · rw [ih _ _ _ _ hkrest h, alookup_aset_ne _ _ _ _ hkr]
          · exact Except.noConfusion (congrArg Prod.fst h)

theorem keysNodup_finalAttrs (rec : SourceRecord) (o : MOptions)
    (dA rA : JsObj) : keysNodup (finalAttrs rec o dA rA) :=
  keysNodup_amerge _ _ (keysNodup_amerge _ _ (keysNodup_amerge _ _
    (keysNodup_getProps rec o.otherAttributes)))

theorem alookup_amerge_nil (b : JsObj) (hnd : keysNodup b) (k : String) :
    alookup (amerge ([] : JsObj) b) k = alookup b k := by
  rw [alookup_amerge_nodup _ _ _ hnd]
  cases alookup b k <;> simp [alookup, Option.orElse]

theorem notin_relsOf_of_ignored (rec : SourceRecord) (o : MOptions)
    (name : String) (h : name ∈ o.ignoreAttributes) :
    name ∉ (relsOf rec o).map RelDef.name := by
  intro hmem
  obtain ⟨r, hr, hrn⟩ := List.mem_map.mp hmem
  have hf := List.of_mem_filter hr
  rw [Bool.not_eq_eq_eq_not, Bool.not_true] at hf
  rw [hrn] at hf
  exact absurd ((contains_iff_mem_str _ _).mpr h) (by rw [hf]; exact Bool.false_ne_true)

theorem stRegT_nextGuid (rec : SourceRecord) (o : MOptions) (g : Nat) (st : St)
    (tc : List String) :
    ({ stRegistered rec o g st with transforms := tc } : St).nextGuid
      = st.nextGuid + 1 := by
  show (allocModel rec o (stEnter st)).2.nextGuid = st.nextGuid + 1
  rw [allocModel_nextGuid]
  rfl

theorem stRegT_propsLookup (rec : SourceRecord) (o : MOptions) (g : Nat)
    (st : St) (tc : List String) (c : Nat) :
    propsLookup ({ stRegistered rec o g st with transforms := tc } : St) c
      = propsLookup st c := by
  show alookup (allocModel rec o (stEnter st)).2.props c = alookup st.props c
  rw [allocModel_props]
  rfl

theorem stRegT_linkLookup (rec : SourceRecord) (o : MOptions) (g : Nat)
    (st : St) (tc : List String) (c : Nat) (n : String) :
    linkLookup ({ stRegistered rec o g st with transforms := tc } : St) c n
      = linkLookup st c n := by
  show alookup (allocModel rec o (stEnter st)).2.links (c, n)
    = alookup st.links (c, n)
  rw [allocModel_links]
  rfl

/-- C4: overwrite precedence — for any name carrying a defined value `v` in
the merged `overwrite` option, the clone produced by a fresh Copy Task
visit ends up with property `name = v`, regardless of `ignoreAttributes`,
`copyByReference` or per-relationship `deep` settings, because `overwrite`
is merged last into the final attribute set applied by `setProperties`. -/
theorem c4_overwrite_precedence (env : Env) (fuel g : Nat) (deep : Bool)
    (popts : Option POptions) (st : St) (rec : SourceRecord) (m : Nat) (st' : St)
    (name : String) (v : Val)
    (hrec : env.records.get? g = some rec)
    (hmemo : lookupCopies st.copies g = none)
    (hwf : StWF st)
    (hnd : keysNodup (mergeOptions rec.copyableOptions popts).overwrite)
    (hov : alookup (mergeOptions rec.copyableOptions popts).overwrite name = some v)
    (hdef : v ≠ Val.undef)
    (hok : copyTask env (fuel + 1) g deep popts st = (Except.ok m, st')) :
    alookup ((propsLookup st' m).getD []) name = some v := by
  obtain ⟨hmng, hm', dA, tc, rA, st₄, heqa, heq, hst⟩ :=
    copyTask_success_shape env fuel g deep popts st rec m st' hrec hmemo hok
  have hmg : (allocModel rec (mergeOptions rec.copyableOptions popts)
      (stEnter st)).1 = st.nextGuid := by
    rw [allocModel_fst]
    rfl
  have hlt : (allocModel rec (mergeOptions rec.copyableOptions popts)
      (stEnter st)).1
      < ({ stRegistered rec (mergeOptions rec.copyableOptions popts) g st with
          transforms := tc } : St).nextGuid := by
    rw [stRegT_nextGuid, hmg]
    exact Nat.lt_succ_self _
  have hnone : propsLookup st₄
      (allocModel rec (mergeOptions rec.copyableOptions popts) (stEnter st)).1
      = none := by
    rw [(relOut_of_eq (copyTask_childPres env fuel) heq).2.2.2 _ hlt,
      stRegT_propsLookup]
    exact propsLookup_none_of_wf hwf (le_of_eq hmg.symm)
  subst hst
  rw [hm', propsLookup_setProps_self, hnone]
  simp only [Option.getD]
  rw [alookup_amerge_nil _ (keysNodup_finalAttrs rec
    (mergeOptions rec.copyableOptions popts) dA rA)]
  unfold finalAttrs
  rw [alookup_amerge_nodup _ _ _ hnd, hov]
  rfl

theorem c4_overwrite_precedence_witness :
    alookup ((propsLookup (copyTask envW 5 0 true (some pOverwrite) st0).2 100).getD [])
      "title" = some (Val.str "V") :=
  c4_overwrite_precedence envW 4 0 true (some pOverwrite) st0 wPost 100 _ "title"
    (Val.str "V") rfl rfl
    ⟨fun p hp => absurd hp (List.not_mem_nil p), fun p hp => absurd hp (List.not_mem_nil p)⟩
    (by unfold keysNodup; decide) rfl (fun h => Val.noConfusion h) rfl

/-- C10: an own key of `overwrite` whose value is `undefined` is treated as
not overwritten by the per-field passes (the `isUndefined` check excludes
it), yet the final `Object.assign` still copies the key last, so the
clone's property for that name ends up set to `undefined` instead of the
value copied from the source. -/
theorem c10_overwrite_undefined_key (env : Env) (fuel g : Nat) (deep : Bool)
    (popts : Option POptions) (st : St) (rec : SourceRecord) (m : Nat) (st' : St)
    (name : String)
    (hrec : env.records.get? g = some rec)
    (hmemo : lookupCopies st.copies g = none)
    (hwf : StWF st)
    (hnd : keysNodup (mergeOptions rec.copyableOptions popts).overwrite)
    (hov : alookup (mergeOptions rec.copyableOptions popts).overwrite name
      = some Val.undef)
    (hok : copyTask env (fuel + 1) g deep popts st = (Except.ok m, st')) :
    isUndefined (jsIndex (mergeOptions rec.copyableOptions popts).overwrite name)
      = true ∧
    alookup ((propsLookup st' m).getD []) name = some Val.undef := by
  constructor
  · unfold jsIndex objGet
    rw [hov]
    rfl
  · obtain ⟨hmng, hm', dA, tc, rA, st₄, heqa, heq, hst⟩ :=
      copyTask_success_shape env fuel g deep popts st rec m st' hrec hmemo hok
    have hmg : (allocModel rec (mergeOptions rec.copyableOptions popts)
        (stEnter st)).1 = st.nextGuid := by
      rw [allocModel_fst]
      rfl
    have hlt : (allocModel rec (mergeOptions rec.copyableOptions popts)
        (stEnter st)).1
        < ({ stRegistered rec (mergeOptions rec.copyableOptions popts) g st with
            transforms := tc } : St).nextGuid := by
      rw [stRegT_nextGuid, hmg]
      exact Nat.lt_succ_self _
    have hnone : propsLookup st₄
        (allocModel rec (mergeOptions rec.copyableOptions popts) (stEnter st)).1
        = none := by
      rw [(relOut_of_eq (copyTask_childPres env fuel) heq).2.2.2 _ hlt,
        stRegT_propsLookup]
      exact propsLookup_none_of_wf hwf (le_of_eq hmg.symm)
    subst hst
    rw [hm', propsLookup_setProps_self, hnone]
    simp only [Option.getD]
    rw [alookup_amerge_nil _ (keysNodup_finalAttrs rec
      (mergeOptions rec.copyableOptions popts) dA rA)]
    unfold finalAttrs
    rw [alookup_amerge_nodup _ _ _ hnd, hov]
    rfl

theorem c10_overwrite_undefined_key_witness :
    isUndefined (jsIndex (mergeOptions wPost.copyableOptions
      (some pOverwriteUndef)).overwrite "title") = true ∧
    alookup ((propsLookup (copyTask envW 5 0 true (some pOverwriteUndef) st0).2
      100).getD []) "title" = some Val.undef :=
  c10_overwrite_undefined_key envW 4 0 true (some pOverwriteUndef) st0 wPost 100 _
    "title" rfl rfl
    ⟨fun p hp => absurd hp (List.not_mem_nil p), fun p hp => absurd hp (List.not_mem_nil p)⟩
    (by unfold keysNodup; decide) rfl rfl

/-- C7: a name listed in `ignoreAttributes` never receives a source-derived
value on the clone: the attribute pass skips it, the relationship pass
excludes it (no property and no low-level link), and — provided the name is
not also in `otherAttributes` and has no `overwrite` key — the final merged
attribute set has no entry for it at all. -/
theorem c7_ignore_excludes (env : Env) (fuel g : Nat) (deep : Bool)
    (popts : Option POptions) (st : St) (rec : SourceRecord) (m : Nat) (st' : St)
    (name : String)
    (hrec : env.records.get? g = some rec)
    (hmemo : lookupCopies st.copies g = none)
    (hwf : StWF st)
    (hig : name ∈ (mergeOptions rec.copyableOptions popts).ignoreAttributes)
    (hoth : name ∉ (mergeOptions rec.copyableOptions popts).otherAttributes)
    (hovn : alookup (mergeOptions rec.copyableOptions popts).overwrite name = none)
    (hok : copyTask env (fuel + 1) g deep popts st = (Except.ok m, st')) :
    alookup ((propsLookup st' m).getD []) name = none ∧
    linkLookup st' m name = none := by
  obtain ⟨hmng, hm', dA, tc, rA, st₄, heqa, heq, hst⟩ :=
    copyTask_success_shape env fuel g deep popts st rec m st' hrec hmemo hok
  have hmg : (allocModel rec (mergeOptions rec.copyableOptions popts)
      (stEnter st)).1 = st.nextGuid := by
    rw [allocModel_fst]
    rfl
  have hlt : (allocModel rec (mergeOptions rec.copyableOptions popts)
      (stEnter st)).1
      < ({ stRegistered rec (mergeOptions rec.copyableOptions popts) g st with
          transforms := tc } : St).nextGuid := by
    rw [stRegT_nextGuid, hmg]
    exact Nat.lt_succ_self _
  have hnone : propsLookup st₄
      (allocModel rec (mergeOptions rec.copyableOptions popts) (stEnter st)).1
      = none := by
    rw [(relOut_of_eq (copyTask_childPres env fuel) heq).2.2.2 _ hlt,
      stRegT_propsLookup]
    exact propsLookup_none_of_wf hwf (le_of_eq hmg.symm)
  have hdAn : alookup dA name = none := by
    rw [attrsLoop_ignored env rec deep (mergeOptions rec.copyableOptions popts)
      name hig rec.attrs [] _ dA tc heqa]
    rfl
  have hrAn : alookup rA name = none := by
    rw [relsLoop_rA_notin env (copyTask env fuel) rec _ deep
      (mergeOptions rec.copyableOptions popts) name _ [] _ rA st₄
      (notin_relsOf_of_ignored rec (mergeOptions rec.copyableOptions popts)
        name hig) heq]
    rfl
  constructor
  · subst hst
    rw [hm', propsLookup_setProps_self, hnone]
    simp only [Option.getD]
    rw [alookup_amerge_nil _ (keysNodup_finalAttrs rec
      (mergeOptions rec.copyableOptions popts) dA rA)]
    unfold finalAttrs
    rw [alookup_amerge_none _ _ _ hovn, alookup_amerge_none _ _ _ hrAn,
      alookup_amerge_none _ _ _ hdAn]
    exact alookup_getProps_notin rec _ name hoth
  · subst hst
    rw [hm']
    have hsp : linkLookup (setPropsSt st₄
        (allocModel rec (mergeOptions rec.copyableOptions popts) (stEnter st)).1
        (finalAttrs rec (mergeOptions rec.copyableOptions popts) dA rA))
        (allocModel rec (mergeOptions rec.copyableOptions popts) (stEnter st)).1
        name
        = linkLookup st₄
          (allocModel rec (mergeOptions rec.copyableOptions popts) (stEnter st)).1
          name := rfl
    rw [hsp,
      (relOut_of_eq (copyTask_childPres env fuel) heq).2.2.1 _ name hlt
        (Or.inr (notin_relsOf_of_ignored rec
          (mergeOptions rec.copyableOptions popts) name hig)),
      stRegT_linkLookup]
    exact linkLookup_none_of_wf hwf (le_of_eq hmg.symm)

theorem c7_ignore_excludes_witness :
    alookup ((propsLookup (copyTask envW 5 0 true (some pIgnoreTitle) st0).2
      100).getD []) "title" = none ∧
    linkLookup (copyTask envW 5 0 true (some pIgnoreTitle) st0).2 100 "title"
      = none :=
  c7_ignore_excludes envW 4 0 true (some pIgnoreTitle) st0 wPost 100 _ "title"
    rfl rfl
    ⟨fun p hp => absurd hp (List.not_mem_nil p), fun p hp => absurd hp (List.not_mem_nil p)⟩
    (by decide) (by decide) rfl rfl

/-! ### The shallow relationship pass -/

theorem amerge_nil_right {κ β : Type} [DecidableEq κ] (a : List (κ × β)) :
    amerge a [] = a := rfl

theorem stRegT_recCalls (rec : SourceRecord) (o : MOptions) (g : Nat) (st : St)
    (tc : List String) :
    ({ stRegistered rec o g st with transforms := tc } : St).recCalls
      = st.recCalls + 1 := by
  show (allocModel rec o (stEnter st)).2.recCalls = st.recCalls + 1
  rw [allocModel_recCalls]
  rfl

theorem relsLoop_rA_nodup (env : Env) (child : Child) (rec : SourceRecord)
    (mG : Nat) (deep : Bool) (o : MOptions) :
    ∀ (rels : List RelDef) (rA : JsObj) (st : St) (rOut : JsObj) (st' : St),
      relsLoop env child rec mG deep o rels rA st = (Except.ok rOut, st') →
      keysNodup rA → keysNodup rOut := by
  intro rels
  induction rels with
  | nil =>
    intro rA st rOut st' h hnd
    have h1 : rA = rOut := Except.ok.inj (congrArg Prod.fst h)
    rw [← h1]
    exact hnd
  | cons r rest ih =>
    intro rA st rOut st' h hnd
    simp only [relsLoop] at h
    split at h
    · exact ih _ _ _ _ h (keysNodup_aset _ _ _ hnd)
    · split at h
      · split at h
        · exact ih _ _ _ _ h hnd
        · exact ih _ _ _ _ h (keysNodup_aset _ _ _ hnd)
      · split at h
        · split at h
          · split at h
            · split at h
              · exact ih _ _ _ _ h (keysNodup_aset _ _ _ hnd)
              · exact Except.noConfusion (congrArg Prod.fst h)
            · exact ih _ _ _ _ h (keysNodup_aset _ _ _ hnd)
          · exact ih _ _ _ _ h (keysNodup_aset _ _ _ hnd)
        · split at h
          · exact ih _ _ _ _ h (keysNodup_aset _ _ _ hnd)
          · exact Except.noConfusion (congrArg Prod.fst h)

/-- In shallow mode (`deep = false`) every relationship is handled in
reference-link mode: the loop never fails (link errors are swallowed by the
`try`/`catch`), links the clone to the source's members where the private
link API works, and otherwise assigns the read value as the fallback. -/
theorem relsLoop_shallow (env : Env) (child : Child) (rec : SourceRecord)
    (mG : Nat) (o : MOptions) :
    ∀ (rels : List RelDef) (rA : JsObj) (st : St),
      (rels.map RelDef.name).Nodup →
      (∀ r ∈ rels, isUndefined (jsIndex o.overwrite r.name) = true) →
      (∀ r ∈ rels, linkLookup st mG r.name = none) →
      ∃ (rOut : JsObj) (stOut : St),
        relsLoop env child rec mG false o rels rA st = (Except.ok rOut, stOut) ∧
        stOut.recCalls = st.recCalls ∧
        stOut.props = st.props ∧
        (∀ c n, (c ≠ mG ∨ n ∉ rels.map RelDef.name) →
          linkLookup stOut c n = linkLookup st c n) ∧
        (∀ r ∈ rels, (rec.linkOk r.name && o.createAsModel) = true →
          linkLookup stOut mG r.name = some (rec.getVal r.name)) ∧
        (∀ r ∈ rels, (rec.linkOk r.name && o.createAsModel) = false →
          alookup rOut r.name = some (rec.getVal r.name)) := by
  intro rels
  induction rels with
  | nil =>
    intro rA st _ _ _
    exact ⟨rA, st, rfl, rfl, rfl, fun c n _ => rfl, fun r hr => absurd hr
      (List.not_mem_nil r), fun r hr => absurd hr (List.not_mem_nil r)⟩
  | cons r rest ih =>
    intro rA st hnd how hlk
    have hcond : (!isUndefined (jsIndex o.overwrite r.name)) = false := by
      rw [how r (List.mem_cons_self r rest)]
      rfl
    have hndr : r.name ∉ rest.map RelDef.name := by
      rw [List.map_cons, List.nodup_cons] at hnd
      exact hnd.1
    have hndrest : (rest.map RelDef.name).Nodup := by
      rw [List.map_cons, List.nodup_cons] at hnd
      exact hnd.2
    by_cases hok : (rec.linkOk r.name && o.createAsModel) = true
    · have hlk1 : ∀ r' ∈ rest,
          linkLookup (addLink st mG r.name (rec.getVal r.name)) mG r'.name = none := by
        intro r' hr'
        have hne : r'.name ≠ r.name := by
          intro hc
          exact hndr (hc ▸ List.mem_map_of_mem RelDef.name hr')
        rw [linkLookup_addLink_ne st mG r.name _ mG r'.name (fun hc => hne hc.2)]
        exact hlk r' (List.mem_cons_of_mem r hr')
      obtain ⟨rOut, stOut, heq, hrc, hpr, hlp, hlt, hfb⟩ :=
        ih rA (addLink st mG r.name (rec.getVal r.name)) hndrest
          (fun r' hr' => how r' (List.mem_cons_of_mem r hr')) hlk1
      refine ⟨rOut, stOut, ?_, hrc, hpr, ?_, ?_, ?_⟩
      · show relsLoop env child rec mG false o (r :: rest) rA st = (Except.ok rOut, stOut)
        simp only [relsLoop, hcond, Bool.not_false, Bool.true_or, if_true,
          Bool.false_eq_true, if_false, hok]
        exact heq
      · intro c n hg
        have hg' : c ≠ mG ∨ n ∉ rest.map RelDef.name := by
          rcases hg with hg | hg
          · exact Or.inl hg
          · exact Or.inr (fun hc => hg (List.mem_cons_of_mem _ hc))
        have hne : ¬(c = mG ∧ n = r.name) := by
          rcases hg with hg | hg
          · exact fun hc => hg hc.1
          · exact fun hc => hg (hc.2 ▸ List.mem_map_of_mem RelDef.name
              (List.mem_cons_self r rest))
        rw [hlp c n hg', linkLookup_addLink_ne st mG r.name _ c n hne]
      · intro r' hr' hok'
        rcases List.mem_cons.mp hr' with hr1 | hr1
        · subst hr1
          rw [hlp mG r'.name (Or.inr (fun hc => hndr hc))]
          exact linkLookup_addLink_self st mG r'.name _
            (hlk r' (List.mem_cons_self r' rest))
        · exact hlt r' hr1 hok'
      · intro r' hr' hok'
        rcases List.mem_cons.mp hr' with hr1 | hr1
        · subst hr1
          rw [hok] at hok'
          exact Bool.noConfusion hok'
        · exact hfb r' hr1 hok'
    · have hokf : (rec.linkOk r.name && o.createAsModel) = false :=
        Bool.eq_false_iff.mpr hok
      obtain ⟨rOut, stOut, heq, hrc, hpr, hlp, hlt, hfb⟩ :=
        ih (aset rA r.name (rec.getVal r.name)) st hndrest
          (fun r' hr' => how r' (List.mem_cons_of_mem r hr'))
          (fun r' hr' => hlk r' (List.mem_cons_of_mem r hr'))
      refine ⟨rOut, stOut, ?_, hrc, hpr, ?_, ?_, ?_⟩
      · show relsLoop env child rec mG false o (r :: rest) rA st = (Except.ok rOut, stOut)
        simp only [relsLoop, hcond, Bool.not_false, Bool.true_or, if_true,
          Bool.false_eq_true, if_false, hokf]
        exact heq
      · intro c n hg
        have hg' : c ≠ mG ∨ n ∉ rest.map RelDef.name := by
          rcases hg with hg | hg
          · exact Or.inl hg
          · exact Or.inr (fun hc => hg (List.mem_cons_of_mem _ hc))
        exact hlp c n hg'
      · intro r' hr' hok'
        rcases List.mem_cons.mp hr' with hr1 | hr1
        · subst hr1
          rw [hok'] at hokf
          exact Bool.noConfusion hokf
        · exact hlt r' hr1 hok'
      · intro r' hr' hok'
        rcases List.mem_cons.mp hr' with hr1 | hr1
        · subst hr1
          rw [relsLoop_rA_notin env child rec mG false o r'.name rest _ st rOut stOut
            (fun hc => hndr hc) heq]
          exact alookup_aset_self rA r'.name _
        · exact hfb r' hr1 hok'

/-- C8: reference-link fallback — in reference-link mode (here: a shallow
pass) any error from the private relationship-link attempt (`linkOk` false
at runtime, or a non-store target) is swallowed locally by the
`try`/`catch`: the relationship pass always completes successfully — the
failure never propagates and never aborts the copy — and the read value is
assigned directly as the fallback. -/
theorem c8_reference_link_fallback (env : Env) (fuel : Nat) (rec : SourceRecord)
    (mG : Nat) (o : MOptions) (rels : List RelDef) (rA : JsObj) (st : St)
    (hnd : (rels.map RelDef.name).Nodup)
    (how : ∀ r ∈ rels, isUndefined (jsIndex o.overwrite r.name) = true)
    (hlk : ∀ r ∈ rels, linkLookup st mG r.name = none) :
    ∃ (rOut : JsObj) (stOut : St),
      relsLoop env (copyTask env fuel) rec mG false o rels rA st
        = (Except.ok rOut, stOut) ∧
      ∀ r ∈ rels, (rec.linkOk r.name && o.createAsModel) = false →
        alookup rOut r.name = some (rec.getVal r.name) := by
  obtain ⟨rOut, stOut, heq, _, _, _, _, hfb⟩ :=
    relsLoop_shallow env (copyTask env fuel) rec mG o rels rA st hnd how hlk
  exact ⟨rOut, stOut, heq, hfb⟩

theorem c8_reference_link_fallback_witness :
    ∃ (rOut : JsObj) (stOut : St),
      relsLoop envW (copyTask envW 4) wNoLink 100 false (mergeOptions none none)
        wNoLink.rels [] st0 = (Except.ok rOut, stOut) ∧
      ∀ r ∈ wNoLink.rels,
        (wNoLink.linkOk r.name && (mergeOptions none none).createAsModel) = false →
        alookup rOut r.name = some (wNoLink.getVal r.name) :=
  c8_reference_link_fallback envW 4 wNoLink 100 (mergeOptions none none)
    wNoLink.rels [] st0 (by decide) (fun r _ => rfl) (fun r _ => rfl)

/-- C5: shallow copy — a fresh shallow (`deep = false`) Copy Task run never
invokes the recursive copy on any relationship (exactly the one top-level
task invocation is recorded), and every relationship of the clone is
attached to the same underlying related value as the source: through the
low-level relationship link when the private API works on a store-created
model, otherwise by assigning the read value directly. -/
theorem c5_shallow_reference_copy (env : Env) (fuel g : Nat)
    (popts : Option POptions) (st : St) (rec : SourceRecord) (m : Nat) (st' : St)
    (hrec : env.records.get? g = some rec)
    (hmemo : lookupCopies st.copies g = none)
    (hwf : StWF st)
    (hndrel : (rec.rels.map RelDef.name).Nodup)
    (hig : (mergeOptions rec.copyableOptions popts).ignoreAttributes = [])
    (hov : (mergeOptions rec.copyableOptions popts).overwrite = [])
    (hok : copyTask env (fuel + 1) g false popts st = (Except.ok m, st')) :
    st'.recCalls = st.recCalls + 1 ∧
    ∀ r ∈ rec.rels,
      ((rec.linkOk r.name
          && (mergeOptions rec.copyableOptions popts).createAsModel) = true →
        linkLookup st' m r.name = some (rec.getVal r.name)) ∧
      ((rec.linkOk r.name
          && (mergeOptions rec.copyableOptions popts).createAsModel) = false →
        alookup ((propsLookup st' m).getD []) r.name = some (rec.getVal r.name)) := by
  obtain ⟨hmng, hm', dA, tc, rA, st₄, heqa, heq, hst⟩ :=
    copyTask_success_shape env fuel g false popts st rec m st' hrec hmemo hok
  have hmg : (allocModel rec (mergeOptions rec.copyableOptions popts)
      (stEnter st)).1 = st.nextGuid := by
    rw [allocModel_fst]
    rfl
  have hrels : relsOf rec (mergeOptions rec.copyableOptions popts) = rec.rels := by
    unfold relsOf
    rw [hig]
    induction rec.rels with
    | nil => rfl
    | cons x xs ih => simp only [List.filter_cons, List.contains_nil,
        Bool.not_false, if_true, List.cons.injEq, true_and] at ih ⊢; exact ih
  rw [hrels] at heq
  obtain ⟨rOut, stOut, heq2, hrc, hpr, hlp, hlt, hfb⟩ :=
    relsLoop_shallow env (copyTask env fuel) rec
      (allocModel rec (mergeOptions rec.copyableOptions popts) (stEnter st)).1
      (mergeOptions rec.copyableOptions popts) rec.rels []
      { stRegistered rec (mergeOptions rec.copyableOptions popts) g st with
        transforms := tc }
      hndrel
      (fun r _ => by rw [hov]; rfl)
      (fun r _ => by
        rw [stRegT_linkLookup]
        exact linkLookup_none_of_wf hwf (le_of_eq hmg.symm))
  have hu : (Except.ok rA, st₄) = (Except.ok rOut, stOut) := heq.symm.trans heq2
  have hra : rA = rOut := Except.ok.inj (congrArg Prod.fst hu)
  have hst4 : st₄ = stOut := congrArg Prod.snd hu
  have hnone : propsLookup st₄
      (allocModel rec (mergeOptions rec.copyableOptions popts) (stEnter st)).1
      = none := by
    have h1 : propsLookup st₄
        (allocModel rec (mergeOptions rec.copyableOptions popts) (stEnter st)).1
        = propsLookup
          ({ stRegistered rec (mergeOptions rec.copyableOptions popts) g st with
            transforms := tc } : St)
          (allocModel rec (mergeOptions rec.copyableOptions popts) (stEnter st)).1 := by
      unfold propsLookup
      rw [hst4, hpr]
    rw [h1, stRegT_propsLookup]
    exact propsLookup_none_of_wf hwf (le_of_eq hmg.symm)
  subst hst
  constructor
  · show st₄.recCalls = st.recCalls + 1
    rw [hst4, hrc, stRegT_recCalls]
  · intro r hr
    constructor
    · intro hok'
      rw [hm']
      have hsp : linkLookup (setPropsSt st₄
          (allocModel rec (mergeOptions rec.copyableOptions popts) (stEnter st)).1
          (finalAttrs rec (mergeOptions rec.copyableOptions popts) dA rA))
          (allocModel rec (mergeOptions rec.copyableOptions popts) (stEnter st)).1
          r.name
          = linkLookup st₄
            (allocModel rec (mergeOptions rec.copyableOptions popts) (stEnter st)).1
            r.name := rfl
      rw [hsp, hst4]
      exact hlt r hr hok'
    · intro hok'
      rw [hm', propsLookup_setProps_self, hnone]
      simp only [Option.getD]
      rw [alookup_amerge_nil _ (keysNodup_finalAttrs rec
        (mergeOptions rec.copyableOptions popts) dA rA)]
      unfold finalAttrs
      rw [hov, amerge_nil_right]
      have hndrA : keysNodup rA :=
        relsLoop_rA_nodup env (copyTask env fuel) rec _ false
          (mergeOptions rec.copyableOptions popts) rec.rels [] _ rA st₄ heq
          List.nodup_nil
      rw [alookup_amerge_nodup _ _ _ hndrA, hra, hfb r hr hok']
      rfl

theorem c5_shallow_reference_copy_witness :
    (copyTask envW 5 0 false none st0).2.recCalls = st0.recCalls + 1 ∧
    ∀ r ∈ wPost.rels,
      ((wPost.linkOk r.name
          && (mergeOptions wPost.copyableOptions none).createAsModel) = true →
        linkLookup (copyTask envW 5 0 false none st0).2 100 r.name
          = some (wPost.getVal r.name)) ∧
      ((wPost.linkOk r.name
          && (mergeOptions wPost.copyableOptions none).createAsModel) = false →
        alookup ((propsLookup (copyTask envW 5 0 false none st0).2 100).getD [])
          r.name = some (wPost.getVal r.name)) :=
  c5_shallow_reference_copy envW 4 0 none st0 wPost 100 _ rfl rfl
    ⟨fun p hp => absurd hp (List.not_mem_nil p), fun p hp => absurd hp (List.not_mem_nil p)⟩
    (by decide) rfl rfl rfl

/-! ### The deep has-many branch -/

theorem membersLoop_spec (env : Env) (child : Child) (dR : Bool)
    (rOpts : Option POptions) (hcp : ChildPres child) (hcr : ChildRecords child) :
    ∀ (ms : List Val) (st : St) (cs : List Val) (st' : St),
      (∀ v ∈ ms, valCopyableRec env v = true) →
      membersLoop env child dR rOpts ms st = (Except.ok cs, st') →
      cs.length = ms.length ∧
      ∀ (i : Nat) (h : i < ms.length) (h' : i < cs.length),
        ∃ gm cm, ms.get ⟨i, h⟩ = Val.ref gm ∧ cs.get ⟨i, h'⟩ = Val.ref cm ∧
          lookupCopies st'.copies gm = some cm := by
  intro ms
  induction ms with
  | nil =>
    intro st cs st' _ h
    have hcs : ([] : List Val) = cs := Except.ok.inj (congrArg Prod.fst h)
    subst hcs
    exact ⟨rfl, fun i h _ => absurd h (Nat.not_lt_zero i)⟩
  | cons v rest ih =>
    intro st cs st' hcop h
    have hv := hcop v (List.mem_cons_self v rest)
    cases v with
    | ref gm =>
      have hg : recCopyableAt env gm = true := hv
      simp only [membersLoop, hg, if_true] at h
      split at h
      · next c st₁ heqc =>
        split at h
        · next cs₂ st₂ heq2 =>
          have hcs : Val.ref c :: cs₂ = cs := Except.ok.inj (congrArg Prod.fst h)
          have hst : st₂ = st' := congrArg Prod.snd h
          subst hst
          subst hcs
          obtain ⟨hlen, hspec⟩ := ih st₁ cs₂ st₂
            (fun v hv => hcop v (List.mem_cons_of_mem _ hv)) heq2
          refine ⟨by simp [hlen], ?_⟩
          intro i hi hi'
          cases i with
          | zero =>
            refine ⟨gm, c, rfl, rfl, ?_⟩
            have hrec := hcr gm dR rOpts st c (by rw [heqc])
            rw [heqc] at hrec
            exact (membersPres_of_eq hcp heq2).1 gm c hrec
          | succ j =>
            have hj : j < rest.length := Nat.lt_of_succ_lt_succ hi
            have hj' : j < cs₂.length := Nat.lt_of_succ_lt_succ hi'
            obtain ⟨gm', cm', h1, h2, h3⟩ := hspec j hj hj'
            exact ⟨gm', cm', h1, h2, h3⟩
        · next e st₂ heq2 => exact Except.noConfusion (congrArg Prod.fst h)
      · next e st₁ heqc => exact Except.noConfusion (congrArg Prod.fst h)
    | undef => exact Bool.noConfusion hv
    | null => exact Bool.noConfusion hv
    | bool b => exact Bool.noConfusion hv
    | num n => exact Bool.noConfusion hv
    | str s => exact Bool.noConfusion hv
    | list l => exact Bool.noConfusion hv
    | obj id => exact Bool.noConfusion hv

/-- C6: deep to-many — the has-many branch keeps the source collection
as-is (a reference copy) when it is empty or its first member does not
expose the copy capability; otherwise, with every member a copyable
record, it copies each member through the recursive Copy Task with the
same childDeep flag, sub-options and session, and the result is a new
ordered collection whose i-th element is exactly the session's clone of
the i-th source member. -/
theorem c6_hasmany_member_copies (env : Env) (fuel : Nat) (deepRel : Bool)
    (relOpts : Option POptions) (value : Val) (st : St) :
    (listElemsOf value = [] →
      hasManyDeepCopy env (copyTask env fuel) deepRel relOpts value st
        = (Except.ok value, st)) ∧
    (∀ f, (listElemsOf value).head? = some f → valCopyableRec env f = false →
      hasManyDeepCopy env (copyTask env fuel) deepRel relOpts value st
        = (Except.ok value, st)) ∧
    (∀ (ms : List Val) (w : Val) (st' : St), value = Val.list ms →
      (∀ v ∈ ms, valCopyableRec env v = true) →
      hasManyDeepCopy env (copyTask env fuel) deepRel relOpts value st
        = (Except.ok w, st') →
      ∃ cs, w = Val.list cs ∧ cs.length = ms.length ∧
        ∀ (i : Nat) (h : i < ms.length) (h' : i < cs.length),
          ∃ gm cm, ms.get ⟨i, h⟩ = Val.ref gm ∧ cs.get ⟨i, h'⟩ = Val.ref cm ∧
            lookupCopies st'.copies gm = some cm) := by
  refine ⟨?_, ?_, ?_⟩
  · intro h0
    simp [hasManyDeepCopy, h0]
  · intro f hf hnc
    simp [hasManyDeepCopy, hf, hnc]
  · intro ms w st' hv hcop h
    subst hv
    cases ms with
    | nil =>
      have hw : Val.list [] = w := Except.ok.inj (congrArg Prod.fst h)
      refine ⟨[], hw.symm, rfl, fun i hi _ => absurd hi (Nat.not_lt_zero i)⟩
    | cons v rest =>
      have hcv := hcop v (List.mem_cons_self v rest)
      simp only [hasManyDeepCopy, listElemsOf, List.head?_cons, hcv, if_true] at h
      split at h
      · next cs₀ st₂ heqm =>
        have hw : Val.list cs₀ = w := Except.ok.inj (congrArg Prod.fst h)
        have hst : st₂ = st' := congrArg Prod.snd h
        subst hst
        obtain ⟨hlen, hspec⟩ := membersLoop_spec env (copyTask env fuel) deepRel
          relOpts (copyTask_childPres env fuel)
          (fun g d p st c hok => copyTask_records env fuel g d p st c hok)
          (v :: rest) st cs₀ st₂ hcop heqm
        exact ⟨cs₀, hw.symm, hlen, hspec⟩
      · next e st₂ heqm => exact Except.noConfusion (congrArg Prod.fst h)

theorem c6_hasmany_member_copies_witness :
    ∃ cs, Val.list [Val.ref 100, Val.ref 102] = Val.list cs ∧
      cs.length = ([Val.ref 1, Val.ref 2] : List Val).length ∧
      ∀ (i : Nat) (h : i < ([Val.ref 1, Val.ref 2] : List Val).length)
        (h' : i < cs.length),
        ∃ gm cm, ([Val.ref 1, Val.ref 2] : List Val).get ⟨i, h⟩ = Val.ref gm ∧
          cs.get ⟨i, h'⟩ = Val.ref cm ∧
          lookupCopies (hasManyDeepCopy envW (copyTask envW 4) true none
            (Val.list [Val.ref 1, Val.ref 2]) st0).2.copies gm = some cm :=
  (c6_hasmany_member_copies envW 4 true none
      (Val.list [Val.ref 1, Val.ref 2]) st0).2.2
    [Val.ref 1, Val.ref 2] (Val.list [Val.ref 100, Val.ref 102])
    (hasManyDeepCopy envW (copyTask envW 4) true none
      (Val.list [Val.ref 1, Val.ref 2]) st0).2
    rfl (by decide) (by rfl)

end EmberDataCopyable
